import Mathlib

/-!
Verification of the TuneShredder audio-fingerprint index and matchers.

A shallow embedding of the JavaScript sources into Lean 4.  Track ids are
modelled as `String` (JS stringifies them before comparing), times as `Int`
(the code coerces positions with `|0`), magnitudes and scores as `ℚ`
(the selection logic is purely comparison-based), JS objects and `Map`s as
insertion-ordered association lists (`List (κ × α)` with `upsert`/`look`,
matching JS key-iteration order), and JS stable `Array.prototype.sort` as
`stableSort` below.
-/

namespace TuneShredder

/-- JS `<` on strings (code-unit lexicographic), as used by `pairKey`
in src/match.js.  Modelled on the character list of the string. -/
def jsLt (a b : String) : Prop := a.data < b.data

instance : DecidableRel jsLt := fun a b => inferInstanceAs (Decidable (a.data < b.data))

/-- Lookup in an insertion-ordered association list (JS `obj[k]` / `Map.get`). -/
def look {κ α : Type*} [DecidableEq κ] (k : κ) : List (κ × α) → Option α
  | [] => none
  | (k', v) :: rest => if k = k' then some v else look k rest

/-- Update the value at a key of an association list, or append the key:
JS `map.set(k, f(map.get(k)))` / `(obj[k] ||= init); mutate` semantics.
An existing key keeps its position (JS iteration order); a new key is
appended at the end. -/
def upsert {κ α : Type*} [DecidableEq κ] (k : κ) (f : Option α → α) : List (κ × α) → List (κ × α)
  | [] => [(k, f none)]
  | (k', v) :: rest => if k = k' then (k', f (some v)) :: rest else (k', v) :: upsert k f rest

theorem look_upsert_self {κ α : Type*} [DecidableEq κ] (k : κ) (f : Option α → α) :
    ∀ l : List (κ × α), look k (upsert k f l) = some (f (look k l))
  | [] => by simp [look, upsert]
  | (k', v) :: rest => by
    by_cases h : k = k' <;> simp [look, upsert, h, look_upsert_self k f rest]

theorem look_upsert_other {κ α : Type*} [DecidableEq κ] {k j : κ} (hkj : j ≠ k)
    (f : Option α → α) : ∀ l : List (κ × α), look j (upsert k f l) = look j l
  | [] => by simp [look, upsert, hkj]
  | (k', v) :: rest => by
    by_cases h : k = k' <;> by_cases h' : j = k' <;>
      simp_all [look, upsert, look_upsert_other hkj f rest]

theorem look_isSome_of_mem {κ α : Type*} [DecidableEq κ] {k : κ} {v : α} :
    ∀ {l : List (κ × α)}, (k, v) ∈ l → (look k l).isSome
  | [], h => by simp at h
  | p :: rest, h => by
    rcases List.mem_cons.mp h with h | h
    · simp [← h, look]
    · by_cases hk : k = p.1 <;> simp [look, hk, look_isSome_of_mem h]

/-- Keys of an association list. -/
def keysOf {κ α : Type*} (l : List (κ × α)) : List κ := l.map Prod.fst

theorem look_eq_some_of_mem_nodup {κ α : Type*} [DecidableEq κ] {k : κ} {v : α} :
    ∀ {l : List (κ × α)}, (keysOf l).Nodup → (k, v) ∈ l → look k l = some v
  | [], _, h => by simp at h
  | p :: rest, hnd, h => by
    simp only [keysOf, List.map_cons, List.nodup_cons] at hnd
    rcases List.mem_cons.mp h with h | h
    · simp [← h, look]
    · have hkp : k ≠ p.1 := by
        intro he
        exact hnd.1 (he ▸ (List.mem_map.mpr ⟨(k, v), h, rfl⟩))
      simp [look, hkp, look_eq_some_of_mem_nodup hnd.2 h]

theorem mem_of_look_eq_some {κ α : Type*} [DecidableEq κ] {k : κ} {v : α} :
    ∀ {l : List (κ × α)}, look k l = some v → (k, v) ∈ l
  | [], h => by simp [look] at h
  | p :: rest, h => by
    by_cases hk : k = p.1
    · rw [show p = (p.1, p.2) from rfl, look, if_pos hk] at h
      simp only [Option.some.injEq] at h
      exact List.mem_cons.mpr (Or.inl (by rw [hk, ← h]))
    · rw [show p = (p.1, p.2) from rfl, look, if_neg hk] at h
      exact List.mem_cons.mpr (Or.inr (mem_of_look_eq_some h))

theorem keysOf_upsert {κ α : Type*} [DecidableEq κ] (k : κ) (f : Option α → α) :
    ∀ l : List (κ × α), keysOf (upsert k f l) = if k ∈ keysOf l then keysOf l else keysOf l ++ [k]
  | [] => by simp [keysOf, upsert]
  | (k', v) :: rest => by
    by_cases h : k = k'
    · simp [keysOf, upsert, h]
    · have := keysOf_upsert k f rest
      by_cases hm : k ∈ keysOf rest <;> simp_all [keysOf, upsert, h, Ne.symm h]

theorem nodup_keys_upsert {κ α : Type*} [DecidableEq κ] (k : κ) (f : Option α → α)
    {l : List (κ × α)} (h : (keysOf l).Nodup) : (keysOf (upsert k f l)).Nodup := by
  rw [keysOf_upsert]
  by_cases hm : k ∈ keysOf l
  · simpa [hm] using h
  · rw [if_neg hm]
    refine List.Nodup.append h (by simp) ?_
    intro a ha hak
    rw [List.mem_singleton] at hak
    exact hm (hak ▸ ha)

/-- Insert `x` after every leading element `y` with `le y x`.  Building
block of `stableSort`. -/
def stableInsert {α : Type*} (le : α → α → Bool) (x : α) : List α → List α
  | [] => [x]
  | y :: rest => if le y x then y :: stableInsert le x rest else x :: y :: rest

/-- JS `Array.prototype.sort` with a consistent comparator: a stable sort.
Modelled as left-to-right insertion (structural, so concrete runs reduce in
the kernel); for a total transitive `le` any stable sort produces this same
list. -/
def stableSort {α : Type*} (le : α → α → Bool) (l : List α) : List α :=
  l.foldl (fun acc x => stableInsert le x acc) []

theorem stableInsert_perm {α : Type*} (le : α → α → Bool) (x : α) :
    ∀ l : List α, (stableInsert le x l).Perm (x :: l)
  | [] => by simp [stableInsert]
  | y :: rest => by
    by_cases h : le y x
    · simpa [stableInsert, h] using
        ((stableInsert_perm le x rest).cons y).trans (List.Perm.swap x y rest)
    · simp [stableInsert, h]

theorem stableSort_perm {α : Type*} (le : α → α → Bool) (l : List α) :
    (stableSort le l).Perm l := by
  suffices h : ∀ (l acc : List α),
      (l.foldl (fun acc x => stableInsert le x acc) acc).Perm (acc ++ l) by
    simpa using h l []
  intro l
  induction l with
  | nil => simp
  | cons x rest ih =>
    intro acc
    simp only [List.foldl_cons]
    refine (ih (stableInsert le x acc)).trans ?_
    have h1 : (stableInsert le x acc ++ rest).Perm ((x :: acc) ++ rest) :=
      (stableInsert_perm le x acc).append_right rest
    refine h1.trans ?_
    simpa using (@List.perm_middle _ x acc rest).symm

theorem mem_stableSort {α : Type*} (le : α → α → Bool) (l : List α) (x : α) :
    x ∈ stableSort le l ↔ x ∈ l := (stableSort_perm le l).mem_iff

theorem pairwise_stableInsert {α : Type*} {le : α → α → Bool}
    (htot : ∀ a b, le a b || le b a) (htr : ∀ a b c, le a b → le b c → le a c) (x : α) :
    ∀ {l : List α}, l.Pairwise (fun a b => le a b) →
      (stableInsert le x l).Pairwise (fun a b => le a b)
  | [], _ => by simp [stableInsert]
  | y :: rest, hp => by
    rcases List.pairwise_cons.mp hp with ⟨hy, hrest⟩
    by_cases h : le y x
    · rw [stableInsert, if_pos h]
      refine List.pairwise_cons.mpr ⟨?_, pairwise_stableInsert htot htr x hrest⟩
      intro b hb
      rcases List.mem_cons.mp ((stableInsert_perm le x rest).mem_iff.mp hb) with hb | hb
      · exact hb ▸ h
      · exact hy b hb
    · have hxy : le x y := by
        rcases Bool.or_eq_true_iff.mp (htot y x) with h' | h'
        · exact absurd h' h
        · exact h'
      rw [stableInsert, if_neg h]
      refine List.pairwise_cons.mpr ⟨?_, hp⟩
      intro b hb
      rcases List.mem_cons.mp hb with hb | hb
      · exact hb ▸ hxy
      · exact htr x y b hxy (hy b hb)

theorem pairwise_stableSort {α : Type*} {le : α → α → Bool}
    (htot : ∀ a b, le a b || le b a) (htr : ∀ a b c, le a b → le b c → le a c)
    (l : List α) : (stableSort le l).Pairwise (fun a b => le a b) := by
  suffices h : ∀ (l acc : List α), acc.Pairwise (fun a b => le a b) →
      (l.foldl (fun acc x => stableInsert le x acc) acc).Pairwise (fun a b => le a b) by
    exact h l [] (by simp)
  intro l
  induction l with
  | nil => exact fun acc h => h
  | cons x rest ih =>
    intro acc hacc
    exact ih _ (pairwise_stableInsert htot htr x hacc)

/-- Faithful model of the JS push loop
`for (j = 0; j < src.length && dst.length < cap; j++) dst.push(src[j])`
found in the capped bucket merges (src/index.js second variant, and
src/unnamed/part_006 / part_010 `mergeIndex`). -/
def pushCapped {α : Type*} (cap : Nat) : List α → List α → List α
  | dst, [] => dst
  | dst, x :: rest => if dst.length < cap then pushCapped cap (dst ++ [x]) rest else dst

theorem pushCapped_eq_append_take {α : Type*} (cap : Nat) :
    ∀ (src dst : List α), pushCapped cap dst src = dst ++ src.take (cap - dst.length)
  | [], dst => by simp [pushCapped]
  | x :: rest, dst => by
    by_cases h : dst.length < cap
    · have hrec := pushCapped_eq_append_take cap rest (dst ++ [x])
      rw [pushCapped, if_pos h, hrec]
      have hc : cap - dst.length = (cap - (dst.length + 1)) + 1 := by omega
      simp [hc, List.take_succ_cons, List.append_assoc]
    · have hc : cap - dst.length = 0 := by omega
      rw [pushCapped, if_neg h, hc]
      simp

theorem length_pushCapped_le {α : Type*} (cap : Nat) (src dst : List α)
    (h : dst.length ≤ cap) : (pushCapped cap dst src).length ≤ cap := by
  rw [pushCapped_eq_append_take]
  simp only [List.length_append, List.length_take]
  omega

/-! ## Buckets, finalization (src/unnamed/part_010 `normalizeBuckets`) and
matcher-side normalization (src/match.js `expandEntry`). -/

/-- A track id as the matcher sees it: JS stringifies entry ids
(`String(e[0])`) before using them. -/
abbrev Id := String

/-- A posting `(track_id, time)` after normalization. -/
abbrev Posting := Id × Int

abbrev Bucket := List Posting

/-- An index as the duplicate-pass matcher consumes it: a JS object in key
insertion order, hash key → bucket of postings. -/
abbrev Index := List (String × Bucket)

/-- One raw bucket entry as read back from the persisted JSON
(input of src/match.js `expandEntry`): a bare id, a flat posting
`[fid, pos]`, or a per-track group `[fid, [t0, dt1, ...]]`. -/
inductive RawEntry
  | scalar (s : String)
  | flat (fid : String) (pos : Int)
  | grouped (fid : String) (v : List Int)
deriving DecidableEq

/-- The decoding loop of src/match.js `expandEntry` on a stored list:
`t = (i === 0) ? d : (t + d)` with `t` starting at `0`, pushing each `t`
(first value, then running prefix sums). -/
def prefixTimes : Int → List Int → List Int
  | _, [] => []
  | t, d :: rest => (t + d) :: prefixTimes (t + d) rest

/-- src/match.js `expandEntry`: materialize one raw entry to
`(track_id, time)` pairs, decoding a stored `[fid, list]` group as
first-value-plus-deltas by prefix sum. -/
def expandEntry : RawEntry → List Posting
  | .scalar s => [(s, 0)]
  | .flat fid pos => [(fid, pos)]
  | .grouped fid v => (prefixTimes 0 v).map (fun t => (fid, t))

/-- src/match.js `normalizeBucket`: concatenation of the entry expansions. -/
def normalizeBucket (b : List RawEntry) : Bucket := b.flatMap expandEntry

/-- src/unnamed/part_010 `normalizeBuckets`, per bucket (identical loop in
part_006 lines 238-244): regroup the flat postings by `fid` (JS iterates
the integer-like keys of the `per` object in ascending numeric order) and
sort each track's times ascending.  The stored per-track list holds the
ABSOLUTE sorted times, not deltas. -/
def finalizeBucket (b : List (Nat × Int)) : List (Nat × List Int) :=
  (stableSort (fun x y => decide (x ≤ y)) (b.map Prod.fst).dedup).map
    (fun fid =>
      (fid, stableSort (fun x y => decide (x ≤ y))
        ((b.filter (fun p => decide (p.1 = fid))).map Prod.snd)))

/-- Claim C1's round trip: finalize a raw bucket of `(fid, t)` postings
(part_010 `normalizeBuckets`), persist the groups, and normalize them back
through the matcher (match.js `expandEntry`, which prefix-sum decodes the
stored list).  Ids come back stringified, as in the matcher. -/
def roundTripBucket (b : List (Nat × Int)) : Bucket :=
  normalizeBucket ((finalizeBucket b).map (fun g => RawEntry.grouped (toString g.1) g.2))

/-- C1: the finalize-then-normalize round trip does NOT return the original
multiset of postings.  `normalizeBuckets` stores each track's sorted
ABSOLUTE times, while `expandEntry` decodes the stored list as
first-value-plus-deltas by prefix sum: the bucket `[(1,3),(1,5)]` is
finalized to `[1,[3,5]]` and comes back as `{(1,3),(1,8)}`. -/
theorem roundTripBucket_not_identity :
    roundTripBucket [(1, 3), (1, 5)] = [("1", 3), ("1", 8)] ∧
    Multiset.ofList (roundTripBucket [(1, 3), (1, 5)]) ≠
      Multiset.ofList ([(1, 3), (1, 5)].map (fun p : Nat × Int => (toString p.1, p.2))) := by
  constructor
  · rfl
  · decide

/-! ## Duplicate pass of src/match.js (first variant): pair canonicalization
and offset voting. -/

/-- src/match.js `pairKey`: the unordered pair in canonical JS-string
order (`a < b ? a NUL b : b NUL a`), modelled as an ordered pair of ids
(the NUL join is injective, `splitPairKey` recovers the components). -/
def pairKey (a b : Id) : Id × Id := if jsLt a b then (a, b) else (b, a)

/-- The ordered traversal `for aI { for bI > aI { ... } }` of one bucket,
skipping same-id pairs, yielding each `(bucket[aI], bucket[bI])` event in
loop order. -/
def bucketPairs : Bucket → List (Posting × Posting)
  | [] => []
  | p :: rest =>
      (rest.filterMap (fun q => if p.1 = q.1 then none else some (p, q))) ++ bucketPairs rest

/-- All pair events of the index in bucket order; buckets with fewer than
two entries are skipped (`if (!bucket || bucket.length < 2) continue`).
Both passes of `findDuplicates` (`buildPairCounts` and `buildOffsetVotes`)
run this same double loop. -/
def indexPairs (idx : Index) : List (Posting × Posting) :=
  idx.flatMap (fun kb => if kb.2.length < 2 then [] else bucketPairs kb.2)

/-- The per-pair accumulator of src/match.js `buildOffsetVotes`:
the insertion-ordered offset histogram and the total vote count. -/
structure VoteEntry where
  offsets : List (Int × Nat)
  totalPairs : Nat
deriving DecidableEq

/-- One vote: `entry.offsets.set(off, (entry.offsets.get(off) || 0) + 1);
entry.totalPairs++`. -/
def addVote (off : Int) (e : VoteEntry) : VoteEntry :=
  ⟨upsert off (fun c => c.getD 0 + 1) e.offsets, e.totalPairs + 1⟩

/-- src/match.js `buildOffsetVotes` (lines 129-172): for each bucket pair
event with distinct ids whose canonical pair is a candidate, accumulate
`off = posA - posB` — the positions in bucket order, with NO negation when
the ids were swapped to canonical order. -/
def buildOffsetVotes (idx : Index) (cands : List (Id × Id)) :
    List ((Id × Id) × VoteEntry) :=
  (indexPairs idx).foldl
    (fun pm pq =>
      let pk := pairKey pq.1.1 pq.2.1
      if pk ∈ cands then
        upsert pk (fun e => addVote (pq.1.2 - pq.2.2) (e.getD ⟨[], 0⟩)) pm
      else pm)
    []

/-- The votes claim C3 prescribes for the same traversal: per event, the
offset `t_a − t_b`, ids swapped AND the offset negated whenever `a > b`
(this is what the part_014/part_015 matchers implement:
`let delta = ...; if (id1 > id2) { [id1, id2] = [id2, id1]; delta = -delta; }`). -/
def claimCanonVotes (idx : Index) : List ((Id × Id) × Int) :=
  (indexPairs idx).map (fun pq =>
    if jsLt pq.2.1 pq.1.1 then ((pq.2.1, pq.1.1), pq.2.2 - pq.1.2)
    else ((pq.1.1, pq.2.1), pq.1.2 - pq.2.2))

/-- The two-bucket index of C3's failing input: both buckets pair the same
two tracks at the same physical alignment (track "2" is track "1" shifted
by 3 frames), but the entries appear in opposite orders. -/
def exIdxC3 : Index := [("k1", [("1", 2), ("2", 5)]), ("k2", [("2", 7), ("1", 4)])]

/-- C3: `buildOffsetVotes` canonicalizes the pair key but does NOT negate
the offset when the ids are swapped.  On `exIdxC3` the code accumulates the
split histogram `{-3 ↦ 1, 3 ↦ 1}` for the canonical pair ("1","2") — the
bucket whose entries arrive as (("2",7),("1",4)) votes `7 - 4 = 3` — while
the claim's rule yields `-3` for both events. -/
theorem buildOffsetVotes_not_canonical :
    look ("1", "2") (buildOffsetVotes exIdxC3 [("1", "2")]) =
      some ⟨[(-3, 1), (3, 1)], 2⟩ ∧
    claimCanonVotes exIdxC3 = [(("1", "2"), -3), (("1", "2"), -3)] := by
  constructor
  · rfl
  · rfl

/-! ## Resumable index construction of src/unnamed/part_006 `buildIndex`. -/

/-- part_006 `fingerprintMap`: bucket one file's landmark stream by key,
capping each per-file bucket at `CFG.bucket = 250`
(`if (a.length < CFG.bucket) a.push([fileId, t])`). -/
def fingerprintMap (hs : List (String × Int)) (fid : Nat) :
    List (String × List (Nat × Int)) :=
  hs.foldl
    (fun m kt =>
      upsert kt.1
        (fun b => let a := b.getD []; if a.length < 250 then a ++ [(fid, kt.2)] else a) m)
    []

/-- part_006 `merge`: for each key of an incoming per-file map, push its
postings onto `merged[k]` while the destination bucket is below
`CFG.bucket = 250`. -/
def mergeMapInto (merged map : List (String × List (Nat × Int))) :
    List (String × List (Nat × Int)) :=
  map.foldl (fun acc ks => upsert ks.1 (fun dst => pushCapped 250 (dst.getD []) ks.2) acc) merged

/-- The finalization loop at the end of part_006 `buildIndex`
(lines 238-244), the same regroup-and-sort as part_010 `normalizeBuckets`. -/
def normalizeIndex (idx : List (String × List (Nat × Int))) :
    List (String × List (Nat × List Int)) :=
  idx.map (fun kb => (kb.1, finalizeBucket kb.2))

/-- The persisted artifact `{ index, meta }` of part_006. -/
structure Artifact where
  index : List (String × List (Nat × List Int))
  meta : List String
deriving DecidableEq

/-- The sequential worker loop of part_006 `buildIndex`: fingerprint each
remaining file with the next dense file id, merge its map, append its name
to meta. -/
def processFiles (fp : String → List (String × Int)) :
    List String → Nat → List (String × List (Nat × Int)) × List String →
      List (String × List (Nat × Int)) × List String
  | [], _, st => st
  | f :: rest, fid, st =>
      processFiles fp rest (fid + 1)
        (mergeMapInto st.1 (fingerprintMap (fp f) fid), st.2 ++ [f])

/-- One run of part_006 `buildIndex` over directory listing `dirFiles`,
resuming from a previously persisted artifact.  The resume path
(`loadMetaOnly`) streams ONLY the `meta` array out of the artifact and
leaves `merged` empty; files already in meta are skipped, dense file ids
continue at `meta.length`, and the index is normalized before the final
write. -/
def runBuild (fp : String → List (String × Int)) (prevMeta : List String)
    (dirFiles : List String) : Artifact :=
  let files :=
    if prevMeta = [] then dirFiles else dirFiles.filter (fun f => decide (f ∉ prevMeta))
  let st := processFiles fp files prevMeta.length ([], prevMeta)
  ⟨normalizeIndex st.1, st.2⟩

/-- The two-file corpus of C4's failing input. -/
def exFpC4 : String → List (String × Int)
  | "f1.mp3" => [("h", 0)]
  | "f2.mp3" => [("g", 1)]
  | _ => []

/-- C4: resuming from a persisted artifact is NOT idempotent.  Building
`{f1, f2}` in one run yields both keys, but building `{f1}` first and then
resuming over `{f1, f2}` yields an artifact whose meta lists both files
while its index has lost every posting of the first run (the meta-only
resume path reads `meta` and leaves `merged` empty). -/
theorem runBuild_resume_not_idempotent :
    (runBuild exFpC4 [] ["f1.mp3", "f2.mp3"]).index =
      [("h", [(0, [0])]), ("g", [(1, [1])])] ∧
    (runBuild exFpC4 (runBuild exFpC4 [] ["f1.mp3"]).meta ["f1.mp3", "f2.mp3"]).meta =
      ["f1.mp3", "f2.mp3"] ∧
    (runBuild exFpC4 (runBuild exFpC4 [] ["f1.mp3"]).meta ["f1.mp3", "f2.mp3"]).index =
      [("g", [(1, [1])])] := by
  refine ⟨rfl, ?_, ?_⟩ <;> rfl

/-! ## Bucket capping in `buildIndex`, src/index.js (two variants). -/

/-- src/index.js first variant, `mapsFromHashes`: group one track's
landmark stream by key, NO cap (`(out[key] ||= []).push([trackId, t])`). -/
def mapsFromHashes (hs : List (String × Int)) (trackId : Id) : List (String × Bucket) :=
  hs.foldl (fun m kt => upsert kt.1 (fun b => b.getD [] ++ [(trackId, kt.2)]) m) []

/-- src/index.js first variant, the merge inside `workerLoop`
(lines 279-287): `(merged[k] ||= []).push(...map[k])` — NO cap. -/
def mergeMapUncapped (merged map : List (String × Bucket)) : List (String × Bucket) :=
  map.foldl (fun acc ks => upsert ks.1 (fun dst => dst.getD [] ++ ks.2) acc) merged

/-- src/index.js first variant `buildIndex`: the per-file maps merged in
processing order. -/
def buildIndexMergeV1 (maps : List (List (String × Bucket))) : List (String × Bucket) :=
  maps.foldl mergeMapUncapped []

/-- src/index.js second variant, `toMap`: per-file bucketing capped at
`CFG.bucket = 250` (`if (b.length < CFG.bucket) b.push([id, t])`). -/
def toMapV2 (hs : List (String × Int)) (id : Id) : List (String × Bucket) :=
  hs.foldl
    (fun m kt =>
      upsert kt.1
        (fun b => let a := b.getD []; if a.length < 250 then a ++ [(id, kt.2)] else a) m)
    []

/-- src/index.js second variant, `merge` (lines 464-471): push incoming
postings while the destination bucket is below `CFG.bucket = 250`. -/
def mergeMapV2 (merged map : List (String × Bucket)) : List (String × Bucket) :=
  map.foldl (fun acc ks => upsert ks.1 (fun dst => pushCapped 250 (dst.getD []) ks.2) acc) merged

/-- src/index.js second variant `buildIndex`: sequential merge of the
per-file fingerprint maps (the worker track id is the file name). -/
def buildIndexV2 (fp : String → List (String × Int)) (files : List String) :
    List (String × Bucket) :=
  files.foldl (fun merged f => mergeMapV2 merged (toMapV2 (fp f) f)) []

set_option maxRecDepth 40000 in
/-- C2 counterexample: the first `buildIndex` variant has no bucket cap at
all — a single track emitting 251 landmarks on one key already leaves a
bucket of 251 postings, above `bucket_cap = 250`. -/
theorem buildIndexMergeV1_exceeds_cap :
    ((look "h" (buildIndexMergeV1
        [mapsFromHashes (List.replicate 251 ("h", (0 : Int))) "t1"])).getD []).length = 251 ∧
    ¬ ((look "h" (buildIndexMergeV1
        [mapsFromHashes (List.replicate 251 ("h", (0 : Int))) "t1"])).getD []).length ≤ 250 := by
  constructor
  · decide
  · decide

/-- Buckets of an association list are all within the cap. -/
def BucketsBounded (cap : Nat) (l : List (String × Bucket)) : Prop :=
  ∀ k b, look k l = some b → b.length ≤ cap

theorem bucketsBounded_upsert_pushCapped (k : String) (src : Bucket)
    {l : List (String × Bucket)} (h : BucketsBounded 250 l) :
    BucketsBounded 250 (upsert k (fun dst => pushCapped 250 (dst.getD []) src) l) := by
  intro k' b hb
  by_cases hk : k' = k
  · subst hk
    rw [look_upsert_self] at hb
    obtain rfl : pushCapped 250 ((look k' l).getD []) src = b := by
      simpa using hb
    apply length_pushCapped_le
    cases hl : look k' l with
    | none => simp
    | some c => simpa using h k' c hl
  · rw [look_upsert_other hk] at hb
    exact h k' b hb

theorem bucketsBounded_mergeMapV2 {merged : List (String × Bucket)}
    (h : BucketsBounded 250 merged) (map : List (String × Bucket)) :
    BucketsBounded 250 (mergeMapV2 merged map) := by
  induction map generalizing merged with
  | nil => exact h
  | cons ks rest ih =>
    exact ih (bucketsBounded_upsert_pushCapped ks.1 ks.2 h)

/-- C2 amended: the second (capped) `buildIndex` variant keeps every bucket
at size at most `bucket_cap = 250`, and its merge appends an incoming
posting only while the destination is below the cap, silently truncating
the remainder (no error path). -/
theorem buildIndexV2_bucket_cap (fp : String → List (String × Int)) (files : List String) :
    (∀ k b, look k (buildIndexV2 fp files) = some b → b.length ≤ 250) ∧
    (∀ dst src : Bucket, pushCapped 250 dst src = dst ++ src.take (250 - dst.length)) := by
  constructor
  · suffices h : ∀ (files : List String) (merged : List (String × Bucket)),
        BucketsBounded 250 merged →
        BucketsBounded 250 (files.foldl (fun m f => mergeMapV2 m (toMapV2 (fp f) f)) merged) by
      exact h files [] (fun k b hb => by simp [look] at hb)
    intro files
    induction files with
    | nil => exact fun merged h => h
    | cons f rest ih =>
      intro merged h
      exact ih _ (bucketsBounded_mergeMapV2 h _)
  · exact fun dst src => pushCapped_eq_append_take 250 src dst

/-! ## `findDuplicates`, src/match.js (first and second variants). -/

/-- Options of the first `findDuplicates` variant, with its defaults. -/
structure DupOpts where
  minMatches : Int := 25
  minRatio : ℚ := mkRat 12 100
  maxBucket : Nat := 80
  dropAbove : Nat := 120
  minBucket : Nat := 2
deriving DecidableEq

/-- Validation `Math.max(1, Number(minMatches) || DEFAULTS.minMatches)` of
the first variant: `0` is falsy in JS and falls back to the default 25. -/
def effMinM (m : Int) : Int := max 1 (if m = 0 then 25 else m)

/-- Validation of `minRatio` (both variants): a value outside `(0, 1]` —
including one RAISED past 1 — resets to the default (0.12 in the first
variant). -/
def effRatio (r : ℚ) : ℚ := if 0 < r ∧ r ≤ 1 then r else mkRat 12 100

/-- The dedupe-and-cap scan of `dedupeIndex` (first variant): walk the
normalized bucket, skip exact `(id, pos)` duplicates (`seenPair`), stop
once `maxBucket` postings are kept. -/
def dedupeScan (maxBucket : Nat) : List Posting → Bucket → Bucket → Bucket
  | _, dst, [] => dst
  | seen, dst, p :: rest =>
      if dst.length < maxBucket then
        if p ∈ seen then dedupeScan maxBucket seen dst rest
        else dedupeScan maxBucket (p :: seen) (dst ++ [p]) rest
      else dst

/-- src/match.js `dedupeIndex` (first variant, lines 61-94): stop-hash
removal by RAW bucket size, normalization, duplicate removal and cap.
Input object keys are unique, so `out[k] = dst` appends. -/
def dedupeIndex (idx : List (String × List RawEntry)) (o : DupOpts) : Index :=
  idx.foldl
    (fun out kb =>
      if kb.2.length < o.minBucket then out
      else if o.dropAbove < kb.2.length then out
      else
        let bucket := normalizeBucket kb.2
        if bucket.length < o.minBucket then out
        else
          let dst := dedupeScan o.maxBucket [] [] bucket
          if o.minBucket ≤ dst.length then out ++ [(kb.1, dst)] else out)
    []

/-- src/match.js `buildPairCounts`: count bucket co-occurrences per
canonical pair (pass 1). -/
def buildPairCounts (idx : Index) : List ((Id × Id) × Nat) :=
  (indexPairs idx).foldl
    (fun pc pq => upsert (pairKey pq.1.1 pq.2.1) (fun c => c.getD 0 + 1) pc) []

/-- Candidate admission `if (cnt >= minM) candidates.add(pk)`; the Set
iterates in `pairCount` insertion order. -/
def candidatesOf (pc : List ((Id × Id) × Nat)) (minM : Int) : List (Id × Id) :=
  pc.filterMap (fun pkc => if minM ≤ (pkc.2 : Int) then some pkc.1 else none)

/-- A result row of the first `findDuplicates` variant. -/
structure DupResult where
  a : Id
  b : Id
  bestOffset : Int
  bestCount : Nat
  totalPairs : Nat
  score : ℚ
deriving DecidableEq

/-- The best-offset scan `for ([off, cnt] of offsets) if (cnt > bestCnt)`:
first strict maximum in histogram insertion order, from `(0, 0)`. -/
def bestOf (offsets : List (Int × Nat)) : Int × Nat :=
  offsets.foldl (fun bo oc => if bo.2 < oc.2 then oc else bo) (0, 0)

/-- Result emission of the first variant: keep a candidate entry iff
`bestCnt >= minM && score >= ratio`, `score = bestCnt / totalPairs`. -/
def resultsOf (pm : List ((Id × Id) × VoteEntry)) (minM : Int) (ratio : ℚ) : List DupResult :=
  pm.foldl
    (fun res pe =>
      let bo := bestOf pe.2.offsets
      let score : ℚ := Rat.divInt bo.2 pe.2.totalPairs
      if minM ≤ (bo.2 : Int) ∧ ratio ≤ score then
        res ++ [⟨pe.1.1, pe.1.2, bo.1, bo.2, pe.2.totalPairs, score⟩]
      else res)
    []

/-- Sort comparator of the first variant:
`(y.bestCount - x.bestCount) || (y.score - x.score)` — best count
descending, then score descending. -/
def leDup (x y : DupResult) : Bool :=
  decide (y.bestCount < x.bestCount) ||
    (decide (y.bestCount = x.bestCount) && decide (y.score ≤ x.score))

/-- src/match.js `findDuplicates`, first variant (lines 174-230). -/
def findDuplicatesV1 (idx : List (String × List RawEntry)) (o : DupOpts) : List DupResult :=
  let cleaned := dedupeIndex idx o
  let pm := buildOffsetVotes cleaned
    (candidatesOf (buildPairCounts cleaned) (effMinM o.minMatches))
  stableSort leDup (resultsOf pm (effMinM o.minMatches) (effRatio o.minRatio))

/-- A result row of the second `findDuplicates` variant: no `score` field;
`sharedHashes` is the total of all histogram counts. -/
structure DupResultV2 where
  a : Id
  b : Id
  bestOffset : Int
  bestCount : Nat
  totalPairs : Nat
  sharedHashes : Nat
deriving DecidableEq

/-- `minM = Number(minMatches) || DEFAULT_MIN_MATCHES` of the second
variant (default 3, no clamp at 1). -/
def effMinMV2 (m : Int) : Int := if m = 0 then 3 else m

/-- `minRatio` validation of the second variant (default 0.5). -/
def effRatioV2 (r : ℚ) : ℚ := if 0 < r ∧ r ≤ 1 then r else mkRat 1 2

/-- Result emission of the second variant (lines 435-453): same filter as
the first variant, but the row records `sharedHashes` (the sum of all
histogram counts) instead of the score. -/
def resultsOfV2 (pm : List ((Id × Id) × VoteEntry)) (minM : Int) (ratio : ℚ) :
    List DupResultV2 :=
  pm.foldl
    (fun res pe =>
      let bo := bestOf pe.2.offsets
      if minM ≤ (bo.2 : Int) ∧ ratio ≤ Rat.divInt bo.2 pe.2.totalPairs then
        res ++ [⟨pe.1.1, pe.1.2, bo.1, bo.2, pe.2.totalPairs, (pe.2.offsets.map Prod.snd).sum⟩]
      else res)
    []

/-- Sort comparator of the second variant (line 458):
`(y.bestCount - x.bestCount) || (y.sharedHashes - x.sharedHashes)`. -/
def leDupV2 (x y : DupResultV2) : Bool :=
  decide (y.bestCount < x.bestCount) ||
    (decide (y.bestCount = x.bestCount) && decide (y.sharedHashes ≤ x.sharedHashes))

/-- src/match.js `findDuplicates`, second variant (lines 343-461): it runs
directly on an already-materialized index (the CLI applies its own
`dedupeIndex` beforehand); the two passes are the same double loops. -/
def findDuplicatesV2 (idx : Index) (o : DupOpts) : List DupResultV2 :=
  let pm := buildOffsetVotes idx
    (candidatesOf (buildPairCounts idx) (effMinMV2 o.minMatches))
  stableSort leDupV2 (resultsOfV2 pm (effMinMV2 o.minMatches) (effRatioV2 o.minRatio))

/-- C5's failing input: pair ("1","2") with 3 perfectly aligned
co-occurrences (score 1), pair ("3","4") with 6 co-occurrences split over
two offsets (best count 3, score 1/2). -/
def exIdxC5 : Index :=
  [("k1", [("1", 0), ("2", 0)]), ("k2", [("1", 0), ("2", 0)]), ("k3", [("1", 0), ("2", 0)]),
   ("k4", [("3", 0), ("4", 0)]), ("k5", [("3", 0), ("4", 0)]), ("k6", [("3", 0), ("4", 0)]),
   ("k7", [("3", 0), ("4", 5)]), ("k8", [("3", 0), ("4", 5)]), ("k9", [("3", 0), ("4", 5)])]

/-- C5 counterexample: the second variant sorts by
`(bestCount desc, sharedHashes desc)`, and `sharedHashes` equals
`totalPairs`; on a best-count tie this is ASCENDING score order.  Here both
pairs have best count 3, yet the pair with score 1/2 is returned before the
pair with score 1. -/
theorem findDuplicatesV2_not_sorted_by_score :
    findDuplicatesV2 exIdxC5 ⟨3, mkRat 1 2, 80, 120, 2⟩ =
      [⟨"3", "4", 0, 3, 6, 6⟩, ⟨"1", "2", 0, 3, 3, 3⟩] ∧
    (3 : ℚ) / 6 < (3 : ℚ) / 3 := by
  constructor
  · decide
  · norm_num

/-! ## Properties of the best-offset scan and the result emission. -/

theorem bestOf_foldl_le (l : List (Int × Nat)) :
    ∀ b : Int × Nat,
      b.2 ≤ (l.foldl (fun bo oc => if bo.2 < oc.2 then oc else bo) b).2 ∧
      ∀ oc ∈ l, oc.2 ≤ (l.foldl (fun bo oc => if bo.2 < oc.2 then oc else bo) b).2 := by
  induction l with
  | nil => exact fun b => ⟨le_rfl, by simp⟩
  | cons oc rest ih =>
    intro b
    simp only [List.foldl_cons]
    rcases ih (if b.2 < oc.2 then oc else b) with ⟨h1, h2⟩
    constructor
    · refine le_trans ?_ h1
      by_cases h : b.2 < oc.2 <;> simp [h] <;> omega
    · intro oc' hoc'
      rcases List.mem_cons.mp hoc' with rfl | hoc'
      · refine le_trans ?_ h1
        by_cases h : b.2 < oc'.2 <;> simp [h] <;> omega
      · exact h2 oc' hoc'

theorem bestOf_le (l : List (Int × Nat)) : ∀ oc ∈ l, oc.2 ≤ (bestOf l).2 :=
  (bestOf_foldl_le l (0, 0)).2

theorem bestOf_foldl_mem (l : List (Int × Nat)) :
    ∀ b : Int × Nat,
      l.foldl (fun bo oc => if bo.2 < oc.2 then oc else bo) b = b ∨
      l.foldl (fun bo oc => if bo.2 < oc.2 then oc else bo) b ∈ l := by
  induction l with
  | nil => exact fun b => Or.inl rfl
  | cons oc rest ih =>
    intro b
    simp only [List.foldl_cons]
    rcases ih (if b.2 < oc.2 then oc else b) with h | h
    · by_cases hb : b.2 < oc.2
      · right
        rw [h, if_pos hb]
        exact List.mem_cons_self oc rest
      · left
        rw [h, if_neg hb]
    · exact Or.inr (List.mem_cons_of_mem oc h)

theorem bestOf_mem {l : List (Int × Nat)} (h : (bestOf l).2 ≠ 0) : bestOf l ∈ l := by
  rcases bestOf_foldl_mem l (0, 0) with h0 | h0
  · exact absurd (congrArg Prod.snd h0) h
  · exact h0

/-- The result row the first `findDuplicates` variant builds from one
pair-map entry. -/
def mkDupResult (pe : (Id × Id) × VoteEntry) : DupResult :=
  ⟨pe.1.1, pe.1.2, (bestOf pe.2.offsets).1, (bestOf pe.2.offsets).2, pe.2.totalPairs,
    Rat.divInt ((bestOf pe.2.offsets).2 : Int) (pe.2.totalPairs : Int)⟩

theorem mem_resultsOf {minM : Int} {ratio : ℚ} {e : DupResult} :
    ∀ {pm : List ((Id × Id) × VoteEntry)},
      e ∈ resultsOf pm minM ratio ↔
        ∃ pe ∈ pm, e = mkDupResult pe ∧
          minM ≤ ((bestOf pe.2.offsets).2 : Int) ∧
          ratio ≤ Rat.divInt ((bestOf pe.2.offsets).2 : Int) (pe.2.totalPairs : Int) := by
  suffices haux : ∀ (pm : List ((Id × Id) × VoteEntry)) (res0 : List DupResult),
      e ∈ pm.foldl
        (fun res pe =>
          let bo := bestOf pe.2.offsets
          let score : ℚ := Rat.divInt bo.2 pe.2.totalPairs
          if minM ≤ (bo.2 : Int) ∧ ratio ≤ score then
            res ++ [⟨pe.1.1, pe.1.2, bo.1, bo.2, pe.2.totalPairs, score⟩]
          else res)
        res0 ↔
      e ∈ res0 ∨ ∃ pe ∈ pm, e = mkDupResult pe ∧
        minM ≤ ((bestOf pe.2.offsets).2 : Int) ∧
        ratio ≤ Rat.divInt ((bestOf pe.2.offsets).2 : Int) (pe.2.totalPairs : Int) by
    intro pm
    rw [resultsOf]
    rw [haux pm []]
    simp
  intro pm
  induction pm with
  | nil => simp
  | cons pe pm' ih =>
    intro res0
    simp only [List.foldl_cons]
    rw [ih]
    by_cases hc : minM ≤ ((bestOf pe.2.offsets).2 : Int) ∧
        ratio ≤ Rat.divInt ((bestOf pe.2.offsets).2 : Int) (pe.2.totalPairs : Int)
    · simp only [if_pos hc, List.mem_append, List.mem_singleton, List.mem_cons,
        List.not_mem_nil, or_false]
      constructor
      · rintro ((h | h) | h)
        · exact Or.inl h
        · exact Or.inr ⟨pe, Or.inl rfl, h, hc⟩
        · rcases h with ⟨pe', hpe', hrest⟩
          exact Or.inr ⟨pe', Or.inr hpe', hrest⟩
      · rintro (h | ⟨pe', hpe' | hpe', hrest⟩)
        · exact Or.inl (Or.inl h)
        · subst hpe'
          exact Or.inl (Or.inr hrest.1)
        · exact Or.inr ⟨pe', hpe', hrest⟩
    · simp only [if_neg hc, List.mem_cons]
      constructor
      · rintro (h | h)
        · exact Or.inl h
        · rcases h with ⟨pe', hpe', hrest⟩
          exact Or.inr ⟨pe', Or.inr hpe', hrest⟩
      · rintro (h | ⟨pe', hpe' | hpe', hrest⟩)
        · exact Or.inl h
        · subst hpe'
          exact absurd hrest.2 hc
        · exact Or.inr ⟨pe', hpe', hrest⟩

theorem nodup_keys_buildOffsetVotes (idx : Index) (cands : List (Id × Id)) :
    (keysOf (buildOffsetVotes idx cands)).Nodup := by
  rw [buildOffsetVotes]
  generalize indexPairs idx = events
  suffices h : ∀ (events : List (Posting × Posting)) (pm : List ((Id × Id) × VoteEntry)),
      (keysOf pm).Nodup →
      (keysOf (events.foldl
        (fun pm pq =>
          let pk := pairKey pq.1.1 pq.2.1
          if pk ∈ cands then
            upsert pk (fun e => addVote (pq.1.2 - pq.2.2) (e.getD ⟨[], 0⟩)) pm
          else pm)
        pm)).Nodup by
    exact h events [] (by simp [keysOf])
  intro events
  induction events with
  | nil => exact fun pm h => h
  | cons pq rest ih =>
    intro pm h
    simp only [List.foldl_cons]
    by_cases hc : pairKey pq.1.1 pq.2.1 ∈ cands
    · exact ih _ (by simpa [hc] using nodup_keys_upsert _ _ h)
    · exact ih _ (by simpa [hc] using h)

/-- The candidate pair map of the first `findDuplicates` variant. -/
def dupPairMap (idx : List (String × List RawEntry)) (o : DupOpts) :
    List ((Id × Id) × VoteEntry) :=
  buildOffsetVotes (dedupeIndex idx o)
    (candidatesOf (buildPairCounts (dedupeIndex idx o)) (effMinM o.minMatches))

theorem findDuplicatesV1_eq (idx : List (String × List RawEntry)) (o : DupOpts) :
    findDuplicatesV1 idx o =
      stableSort leDup (resultsOf (dupPairMap idx o) (effMinM o.minMatches)
        (effRatio o.minRatio)) := rfl

theorem leDup_total (x y : DupResult) : leDup x y || leDup y x := by
  simp only [leDup, Bool.or_eq_true, decide_eq_true_eq, Bool.and_eq_true]
  rcases lt_trichotomy x.bestCount y.bestCount with h | h | h
  · exact Or.inr (Or.inl h)
  · rcases le_total y.score x.score with hs | hs
    · exact Or.inl (Or.inr ⟨h.symm, hs⟩)
    · exact Or.inr (Or.inr ⟨h, hs⟩)
  · exact Or.inl (Or.inl h)

theorem leDup_trans (x y z : DupResult) (h1 : leDup x y) (h2 : leDup y z) : leDup x z := by
  simp only [leDup, Bool.or_eq_true, decide_eq_true_eq, Bool.and_eq_true] at h1 h2 ⊢
  rcases h1 with h1 | ⟨h1e, h1s⟩ <;> rcases h2 with h2 | ⟨h2e, h2s⟩
  · exact Or.inl (h2.trans h1)
  · exact Or.inl (h2e ▸ h1)
  · exact Or.inl (h1e ▸ h2)
  · exact Or.inr ⟨h1e ▸ h2e, h2s.trans h1s⟩

theorem effMinM_pos (m : Int) : 1 ≤ effMinM m := le_max_left 1 _

/-- C5 (amended): the FIRST `findDuplicates` variant behaves as the claim
states: every returned row's score is `bestCount / totalPairs`; its best
offset is a mode of that pair's histogram (it occurs with the maximal
count); a candidate pair-map entry is emitted iff `bestCount ≥ minM` and
`score ≥ ratio` (validated thresholds); and the returned list is sorted by
best count descending, then score descending.  (The SECOND variant sorts
by `(bestCount, sharedHashes)` descending instead — see the
counterexample theorem for that variant.) -/
theorem findDuplicatesV1_scoring_and_sort (idx : List (String × List RawEntry)) (o : DupOpts) :
    ((findDuplicatesV1 idx o).Pairwise fun x y =>
      y.bestCount < x.bestCount ∨ (y.bestCount = x.bestCount ∧ y.score ≤ x.score)) ∧
    (∀ e ∈ findDuplicatesV1 idx o,
      e.score = (e.bestCount : ℚ) / (e.totalPairs : ℚ) ∧
      effMinM o.minMatches ≤ (e.bestCount : Int) ∧
      effRatio o.minRatio ≤ e.score ∧
      ∃ entry, look (e.a, e.b) (dupPairMap idx o) = some entry ∧
        entry.totalPairs = e.totalPairs ∧
        (e.bestOffset, e.bestCount) ∈ entry.offsets ∧
        ∀ oc ∈ entry.offsets, oc.2 ≤ e.bestCount) ∧
    (∀ pk entry, look pk (dupPairMap idx o) = some entry →
      effMinM o.minMatches ≤ ((bestOf entry.offsets).2 : Int) →
      effRatio o.minRatio ≤ Rat.divInt ((bestOf entry.offsets).2 : Int) (entry.totalPairs : Int) →
      mkDupResult (pk, entry) ∈ findDuplicatesV1 idx o) := by
  refine ⟨?_, ?_, ?_⟩
  · have hp := @pairwise_stableSort _ leDup leDup_total leDup_trans
      (resultsOf (dupPairMap idx o) (effMinM o.minMatches) (effRatio o.minRatio))
    rw [findDuplicatesV1_eq]
    refine hp.imp ?_
    intro x y h
    simpa [leDup, Bool.or_eq_true, Bool.and_eq_true, decide_eq_true_eq] using h
  · intro e he
    rw [findDuplicatesV1_eq, mem_stableSort, mem_resultsOf] at he
    obtain ⟨pe, hpe, rfl, hminM, hratio⟩ := he
    have hbc0 : (bestOf pe.2.offsets).2 ≠ 0 := by
      have := le_trans (effMinM_pos o.minMatches) hminM
      omega
    refine ⟨?_, hminM, hratio, pe.2, ?_, rfl, bestOf_mem hbc0, bestOf_le pe.2.offsets⟩
    · show Rat.divInt ((bestOf pe.2.offsets).2 : Int) (pe.2.totalPairs : Int) = _
      rw [Rat.divInt_eq_div]
      push_cast
      rfl
    · show look (pe.1.1, pe.1.2) (dupPairMap idx o) = some pe.2
      have : (pe.1.1, pe.1.2) = pe.1 := rfl
      rw [this]
      exact look_eq_some_of_mem_nodup (nodup_keys_buildOffsetVotes _ _) (by simpa using hpe)
  · intro pk entry hl hm hr
    rw [findDuplicatesV1_eq, mem_stableSort, mem_resultsOf]
    exact ⟨(pk, entry), mem_of_look_eq_some hl, rfl, hm, hr⟩

/-- Concrete instance of the amended C5 theorem: on a one-bucket index the
single candidate pair clears the thresholds `minMatches = 1`,
`minRatio = 1/2`, and its row is returned. -/
theorem findDuplicatesV1_scoring_and_sort_witness :
    mkDupResult (("1", "2"), ⟨[(0, 1)], 1⟩) ∈
      findDuplicatesV1 [("k", [RawEntry.flat "1" 0, RawEntry.flat "2" 0])]
        ⟨1, mkRat 1 2, 80, 120, 2⟩ := by
  refine (findDuplicatesV1_scoring_and_sort
    [("k", [RawEntry.flat "1" 0, RawEntry.flat "2" 0])] ⟨1, mkRat 1 2, 80, 120, 2⟩).2.2
    ("1", "2") ⟨[(0, 1)], 1⟩ (by decide) (by decide) (by decide)

/-! ## Threshold monotonicity of the duplicate pass. -/

/-- The offsets the vote pass accumulates for one canonical pair, in event
order.  This list does not depend on the candidate set. -/
def offsetsForPair (pk : Id × Id) (idx : Index) : List Int :=
  (indexPairs idx).filterMap
    (fun pq => if pairKey pq.1.1 pq.2.1 = pk then some (pq.1.2 - pq.2.2) else none)

/-- Replay a list of offsets into an optional vote entry, the way the vote
fold does (`none` = the pair was never touched). -/
def accumFrom : Option VoteEntry → List Int → Option VoteEntry
  | o, [] => o
  | o, d :: ds => accumFrom (some (addVote d (o.getD ⟨[], 0⟩))) ds

theorem look_buildOffsetVotes (idx : Index) (cands : List (Id × Id)) (pk : Id × Id) :
    look pk (buildOffsetVotes idx cands) =
      if pk ∈ cands then accumFrom none (offsetsForPair pk idx) else none := by
  suffices haux : ∀ (events : List (Posting × Posting)) (pm : List ((Id × Id) × VoteEntry)),
      look pk (events.foldl
        (fun pm pq =>
          let pk' := pairKey pq.1.1 pq.2.1
          if pk' ∈ cands then
            upsert pk' (fun e => addVote (pq.1.2 - pq.2.2) (e.getD ⟨[], 0⟩)) pm
          else pm)
        pm) =
      if pk ∈ cands then
        accumFrom (look pk pm)
          (events.filterMap
            (fun pq => if pairKey pq.1.1 pq.2.1 = pk then some (pq.1.2 - pq.2.2) else none))
      else look pk pm by
    rw [buildOffsetVotes, offsetsForPair]
    rw [haux (indexPairs idx) []]
    by_cases h : pk ∈ cands <;> simp [h, look]
  intro events
  induction events with
  | nil =>
    intro pm
    by_cases h : pk ∈ cands <;> simp [h, accumFrom]
  | cons pq rest ih =>
    intro pm
    simp only [List.foldl_cons, List.filterMap_cons]
    by_cases hpk : pairKey pq.1.1 pq.2.1 = pk
    · by_cases hc : pk ∈ cands
      · rw [if_pos (hpk ▸ hc)]
        rw [ih]
        rw [if_pos hc, if_pos hpk, hpk]
        rw [look_upsert_self]
        simp [hc, accumFrom]
      · rw [if_neg (by rw [hpk]; exact hc)]
        rw [ih]
        rw [if_neg hc, if_neg hc]
    · by_cases hc' : pairKey pq.1.1 pq.2.1 ∈ cands
      · rw [if_pos hc']
        rw [ih]
        rw [if_neg hpk]
        rw [look_upsert_other (fun he => hpk he.symm)]
      · rw [if_neg hc']
        rw [ih]
        rw [if_neg hpk]

theorem mem_candidatesOf {pc : List ((Id × Id) × Nat)} {m : Int} {pk : Id × Id} :
    pk ∈ candidatesOf pc m ↔ ∃ c : Nat, (pk, c) ∈ pc ∧ m ≤ (c : Int) := by
  simp only [candidatesOf, List.mem_filterMap]
  constructor
  · rintro ⟨pkc, hpkc, hif⟩
    by_cases h : m ≤ (pkc.2 : Int)
    · rw [if_pos h] at hif
      simp only [Option.some.injEq] at hif
      refine ⟨pkc.2, ?_, h⟩
      rw [← hif]
      exact hpkc
    · rw [if_neg h] at hif
      simp at hif
  · rintro ⟨c, hmem, hc⟩
    exact ⟨(pk, c), hmem, by rw [if_pos hc]⟩

theorem candidatesOf_anti {pc : List ((Id × Id) × Nat)} {m1 m2 : Int} (h : m1 ≤ m2) :
    ∀ pk ∈ candidatesOf pc m2, pk ∈ candidatesOf pc m1 := by
  intro pk hpk
  rcases mem_candidatesOf.mp hpk with ⟨c, hmem, hc⟩
  exact mem_candidatesOf.mpr ⟨c, hmem, le_trans h hc⟩

theorem effMinM_of_one_le {m : Int} (h : 1 ≤ m) : effMinM m = m := by
  rw [effMinM, if_neg (by omega), max_eq_right h]

theorem effRatio_of_valid {r : ℚ} (h0 : 0 < r) (h1 : r ≤ 1) : effRatio r = r := by
  rw [effRatio, if_pos ⟨h0, h1⟩]

/-- C6 (amended): raising `min_matches` within the validated range `[1, ∞)`
or `min_ratio` within the validated range `(0, 1]` can only remove rows
from the result of `findDuplicates` (first variant), never add new pairs.
(As literally stated the claim fails: `minMatches = 0` is falsy in the
`Number(minMatches) || 25` validation, so raising it from 0 to 1 LOWERS
the effective threshold from 25 to 1 and adds pairs — see the
counterexample; likewise any `minRatio` raised past 1 resets to 0.12.) -/
theorem findDuplicates_thresholds_monotone
    (idx : List (String × List RawEntry)) (mb da nb : Nat)
    (m1 m2 : Int) (r1 r2 : ℚ)
    (hm1 : 1 ≤ m1) (hm12 : m1 ≤ m2) (hr0 : 0 < r1) (hr12 : r1 ≤ r2) (hr1 : r2 ≤ 1) :
    ∀ e ∈ findDuplicatesV1 idx ⟨m2, r2, mb, da, nb⟩,
      e ∈ findDuplicatesV1 idx ⟨m1, r1, mb, da, nb⟩ := by
  intro e he
  have hm2 : 1 ≤ m2 := le_trans hm1 hm12
  have hr20 : 0 < r2 := lt_of_lt_of_le hr0 hr12
  have hr11 : r1 ≤ 1 := le_trans hr12 hr1
  have hcl : dedupeIndex idx ⟨m2, r2, mb, da, nb⟩ = dedupeIndex idx ⟨m1, r1, mb, da, nb⟩ := rfl
  rw [findDuplicatesV1_eq, mem_stableSort, mem_resultsOf] at he
  obtain ⟨pe, hpe, hee, hminM, hratio⟩ := he
  rw [findDuplicatesV1_eq, mem_stableSort, mem_resultsOf]
  set cleaned := dedupeIndex idx ⟨m1, r1, mb, da, nb⟩ with hcleaned
  have hlook2 : look pe.1 (dupPairMap idx ⟨m2, r2, mb, da, nb⟩) = some pe.2 := by
    refine look_eq_some_of_mem_nodup (nodup_keys_buildOffsetVotes _ _) ?_
    simpa using hpe
  rw [dupPairMap, look_buildOffsetVotes] at hlook2
  have hc2 : pe.1 ∈ candidatesOf (buildPairCounts (dedupeIndex idx ⟨m2, r2, mb, da, nb⟩))
      (effMinM m2) := by
    by_contra hc
    rw [if_neg hc] at hlook2
    exact Option.noConfusion hlook2
  rw [if_pos hc2] at hlook2
  have hc1 : pe.1 ∈ candidatesOf (buildPairCounts cleaned) (effMinM m1) := by
    refine candidatesOf_anti ?_ pe.1 hc2
    rw [effMinM_of_one_le hm1, effMinM_of_one_le hm2]
    exact hm12
  have hlook1 : look pe.1 (dupPairMap idx ⟨m1, r1, mb, da, nb⟩) = some pe.2 := by
    rw [dupPairMap, look_buildOffsetVotes, if_pos hc1]
    exact hlook2
  refine ⟨pe, ?_, hee, ?_, ?_⟩
  · have := mem_of_look_eq_some hlook1
    simpa using this
  · rw [effMinM_of_one_le hm1]
    rw [effMinM_of_one_le hm2] at hminM
    exact le_trans hm12 hminM
  · rw [effRatio_of_valid hr0 hr11]
    rw [effRatio_of_valid hr20 hr1] at hratio
    exact le_trans hr12 hratio

/-- The one-bucket index of the C6 counterexample. -/
def exIdxC6 : List (String × List RawEntry) :=
  [("k", [RawEntry.flat "1" 0, RawEntry.flat "2" 0])]

/-- C6 counterexample: raising `min_matches` from 0 to 1 ADDS a pair.
`Number(0)` is falsy, so `minMatches = 0` silently falls back to the
default 25 (no results), while `minMatches = 1` admits the pair. -/
theorem findDuplicatesV1_raising_adds_pair :
    findDuplicatesV1 exIdxC6 ⟨0, mkRat 12 100, 80, 120, 2⟩ = [] ∧
    findDuplicatesV1 exIdxC6 ⟨1, mkRat 12 100, 80, 120, 2⟩ = [⟨"1", "2", 0, 1, 1, 1⟩] := by
  constructor
  · decide
  · decide

/-- The two-bucket index used by the monotonicity witness. -/
def exIdxC6w : List (String × List RawEntry) :=
  [("k1", [RawEntry.flat "1" 0, RawEntry.flat "2" 0]),
   ("k2", [RawEntry.flat "1" 3, RawEntry.flat "2" 3])]

/-- Concrete instance of the amended monotonicity theorem at
`min_matches` 2 → 1 with `min_ratio` 1/2. -/
theorem findDuplicates_thresholds_monotone_witness :
    (⟨"1", "2", 0, 2, 2, 1⟩ : DupResult) ∈
      findDuplicatesV1 exIdxC6w ⟨1, mkRat 1 2, 80, 120, 2⟩ :=
  findDuplicates_thresholds_monotone exIdxC6w 80 120 2 1 2 (mkRat 1 2) (mkRat 1 2)
    (by decide) (by decide) (by decide) (by decide) (by decide)
    ⟨"1", "2", 0, 2, 2, 1⟩ (by decide)

/-! ## Peak pickers: src/worker.js `makePeaks` and the second-variant
`peaks` of src/index.js.  Magnitudes are modelled as `ℚ`; the selection
logic is purely comparison-based. -/

/-- The candidate scan of worker.js `makePeaks`
(`for (k = 2; k < mags.length - 2; k++)`): a bin survives iff its
magnitude is at least `C.min` (`if (a < C.min) continue`) and strictly
exceeds both neighbours on each side
(`a > mags[k-1] && a > mags[k+1] && a > mags[k-2] && a > mags[k+2]`),
in ascending bin order. -/
def peakCandidates (mags : List ℚ) (minV : ℚ) : List Nat :=
  (List.range mags.length).filter (fun k =>
    decide (2 ≤ k) && decide (k + 2 < mags.length) &&
    decide (minV ≤ mags.getD k 0) &&
    decide (mags.getD (k - 1) 0 < mags.getD k 0) &&
    decide (mags.getD (k + 1) 0 < mags.getD k 0) &&
    decide (mags.getD (k - 2) 0 < mags.getD k 0) &&
    decide (mags.getD (k + 2) 0 < mags.getD k 0))

/-- One insertion into the fixed-size top array of `makePeaks`: find the
first slot strictly below `a` (`if (a > mag[i]) { ins = i; break }`),
shift the tail down one slot dropping the last
(`for (i = C.top - 1; i > ins; i--) ...`), and store `(a, k)`.  The
zero-initialized tail slots are the free ones. -/
def insertPeakRec (a : ℚ) (k : Nat) : List (ℚ × Nat) → List (ℚ × Nat)
  | [] => []
  | e :: rest => if e.1 < a then (a, k) :: (e :: rest).dropLast else e :: insertPeakRec a k rest

/-- worker.js `makePeaks`, selection part: run the candidates in scan
order through the insertion array (`bins.fill(0); mag.fill(0)`), then read
off the bins of the nonzero prefix
(`while (n < top && mag[n] > 0) n++; return bins[0..n)`). -/
def makePeaks (mags : List ℚ) (minV : ℚ) (top : Nat) : List Nat :=
  (((peakCandidates mags minV).foldl
      (fun st k => insertPeakRec (mags.getD k 0) k st)
      (List.replicate top ((0 : ℚ), (0 : Nat)))).takeWhile
    (fun e => decide (0 < e.1))).map Prod.snd

/-- src/index.js second-variant `peaks`, per row:
`Array.from(row.keys()).sort((a, b) => row[b] - row[a]).slice(0, CFG.top)
.filter(i => row[i] > 0)` — the top `CFG.top = 16` bins by magnitude
(stable on ties), kept only if positive; NO local-max test, NO noise
floor. -/
def peaksRowV2 (row : List ℚ) : List Nat :=
  ((stableSort (fun i j => decide (row.getD j 0 ≤ row.getD i 0))
      (List.range row.length)).take 16).filter
    (fun i => decide (0 < row.getD i 0))

/-- C7 counterexample: on the spectrum `[5, 4, 3]` the second peak picker
returns bin 1 although `mag[1] = 4` does not strictly exceed its left
neighbour `mag[0] = 5` (and bin 1 has no complete ±2 neighbourhood), so
bin 1 is not a candidate under the claimed policy for any noise floor. -/
theorem peaksRowV2_breaks_policy :
    peaksRowV2 [5, 4, 3] = [0, 1, 2] ∧
    1 ∈ peaksRowV2 [5, 4, 3] ∧
    ¬ ((4 : ℚ) > 5) ∧
    1 ∉ peakCandidates [5, 4, 3] 0 := by
  refine ⟨by decide, by decide, by norm_num, by decide⟩

theorem length_insertPeakRec (a : ℚ) (k : Nat) :
    ∀ st : List (ℚ × Nat), (insertPeakRec a k st).length = st.length
  | [] => rfl
  | e :: rest => by
    by_cases h : e.1 < a
    · simp [insertPeakRec, h]
    · simp [insertPeakRec, h, length_insertPeakRec a k rest]

theorem mem_insertPeakRec {a : ℚ} {k : Nat} {x : ℚ × Nat} :
    ∀ {st : List (ℚ × Nat)}, x ∈ insertPeakRec a k st → x = (a, k) ∨ x ∈ st
  | [], h => by simp [insertPeakRec] at h
  | e :: rest, h => by
    by_cases he : e.1 < a
    · rw [insertPeakRec, if_pos he] at h
      rcases List.mem_cons.mp h with h | h
      · exact Or.inl h
      · exact Or.inr (List.dropLast_subset _ h)
    · rw [insertPeakRec, if_neg he] at h
      rcases List.mem_cons.mp h with h | h
      · exact Or.inr (List.mem_cons.mpr (Or.inl h))
      · rcases mem_insertPeakRec h with h | h
        · exact Or.inl h
        · exact Or.inr (List.mem_cons.mpr (Or.inr h))

/-- Sorted-descending invariant of the top array. -/
def SortedDesc (st : List (ℚ × Nat)) : Prop := st.Pairwise (fun x y => y.1 ≤ x.1)

theorem sortedDesc_insertPeakRec {a : ℚ} {k : Nat} :
    ∀ {st : List (ℚ × Nat)}, SortedDesc st → SortedDesc (insertPeakRec a k st)
  | [], _ => by simp [insertPeakRec, SortedDesc]
  | e :: rest, hs => by
    rcases List.pairwise_cons.mp hs with ⟨he, hrest⟩
    by_cases h : e.1 < a
    · rw [insertPeakRec, if_pos h]
      refine List.pairwise_cons.mpr ⟨?_, ?_⟩
      · intro y hy
        rcases List.mem_cons.mp (List.dropLast_subset _ hy) with hy | hy
        · rw [hy]
          exact le_of_lt h
        · exact le_of_lt (lt_of_le_of_lt (he y hy) h)
      · exact (List.pairwise_cons.mpr ⟨he, hrest⟩).sublist (List.dropLast_sublist _)
    · rw [insertPeakRec, if_neg h]
      refine List.pairwise_cons.mpr ⟨?_, sortedDesc_insertPeakRec hrest⟩
      intro y hy
      rcases mem_insertPeakRec hy with hy | hy
      · rw [hy]
        exact le_of_not_lt h
      · exact he y hy

theorem insertPeakRec_cases (a : ℚ) (k : Nat) :
    ∀ st : List (ℚ × Nat),
      (insertPeakRec a k st = st ∧ ∀ e ∈ st, a ≤ e.1) ∨
        ((a, k) ∈ insertPeakRec a k st ∧ ∃ e ∈ st, e.1 < a)
  | [] => Or.inl ⟨rfl, by simp⟩
  | e :: rest => by
    by_cases h : e.1 < a
    · rw [insertPeakRec, if_pos h]
      exact Or.inr ⟨List.mem_cons_self _ _, e, List.mem_cons_self e rest, h⟩
    · rw [insertPeakRec, if_neg h]
      rcases insertPeakRec_cases a k rest with ⟨heq, hall⟩ | ⟨hm, e', he', hlt⟩
      · refine Or.inl ⟨by rw [heq], ?_⟩
        intro x hx
        rcases List.mem_cons.mp hx with hx | hx
        · rw [hx]
          exact le_of_not_lt h
        · exact hall x hx
      · exact Or.inr ⟨List.mem_cons.mpr (Or.inr hm), e', List.mem_cons_of_mem e he', hlt⟩

theorem insertPeakRec_preserve {a : ℚ} {k : Nat} {x : ℚ × Nat} :
    ∀ {st : List (ℚ × Nat)}, SortedDesc st → x ∈ st →
      x ∈ insertPeakRec a k st ∨ ∀ e ∈ insertPeakRec a k st, x.1 ≤ e.1
  | [], _, hx => by simp at hx
  | e :: rest, hs, hx => by
    rcases List.pairwise_cons.mp hs with ⟨he, hrest⟩
    by_cases h : e.1 < a
    · rw [insertPeakRec, if_pos h]
      by_cases hxd : x ∈ (e :: rest).dropLast
      · exact Or.inl (List.mem_cons.mpr (Or.inr hxd))
      · right
        have hne : (e :: rest) ≠ [] := by simp
        have hsplit := List.dropLast_concat_getLast hne
        have hx2 : x ∈ (e :: rest).dropLast ++ [(e :: rest).getLast hne] := by
          rw [hsplit]
          exact hx
        have hxlast : x = (e :: rest).getLast hne := by
          rcases List.mem_append.mp hx2 with h1 | h1
          · exact absurd h1 hxd
          · simpa using h1
        have hxle : ∀ y ∈ (e :: rest).dropLast, x.1 ≤ y.1 := by
          intro y hy
          have hp : ((e :: rest).dropLast ++ [(e :: rest).getLast hne]).Pairwise
              (fun x y => y.1 ≤ x.1) := by
            rw [hsplit]
            exact hs
          have := (List.pairwise_append.mp hp).2.2 y hy ((e :: rest).getLast hne) (by simp)
          rw [hxlast]
          exact this
        intro y hy
        rcases List.mem_cons.mp hy with hy | hy
        · rw [hy]
          have hxe : x.1 ≤ e.1 := by
            rcases List.mem_cons.mp hx with h1 | h1
            · rw [h1]
            · exact he x h1
          exact le_of_lt (lt_of_le_of_lt hxe h)
        · exact hxle y hy
    · rw [insertPeakRec, if_neg h]
      rcases List.mem_cons.mp hx with hx | hx
      · exact Or.inl (List.mem_cons.mpr (Or.inl hx))
      · rcases insertPeakRec_preserve hrest hx with hm | hall
        · exact Or.inl (List.mem_cons.mpr (Or.inr hm))
        · right
          intro y hy
          rcases List.mem_cons.mp hy with hy | hy
          · rw [hy]
            exact he x hx
          · exact hall y hy

theorem mem_takeWhile_pos_of_mem {x : ℚ × Nat} (hxp : 0 < x.1) :
    ∀ {st : List (ℚ × Nat)}, SortedDesc st → x ∈ st →
      x ∈ st.takeWhile (fun e => decide (0 < e.1))
  | [], _, hx => by simp at hx
  | e :: rest, hs, hx => by
    rcases List.pairwise_cons.mp hs with ⟨he, hrest⟩
    by_cases hp : 0 < e.1
    · rw [List.takeWhile_cons, if_pos (by simpa using hp)]
      rcases List.mem_cons.mp hx with hx | hx
      · exact List.mem_cons.mpr (Or.inl hx)
      · exact List.mem_cons.mpr (Or.inr (mem_takeWhile_pos_of_mem hxp hrest hx))
    · exfalso
      rcases List.mem_cons.mp hx with hx | hx
      · rw [← hx] at hp
        exact hp hxp
      · exact hp (lt_of_lt_of_le hxp (he x hx))

theorem mem_of_mem_takeWhile {α : Type*} {p : α → Bool} {x : α} :
    ∀ {l : List α}, x ∈ l.takeWhile p → x ∈ l ∧ p x
  | [], h => by simp at h
  | e :: rest, h => by
    by_cases hp : p e
    · rw [List.takeWhile_cons, if_pos hp] at h
      rcases List.mem_cons.mp h with h | h
      · exact ⟨List.mem_cons.mpr (Or.inl h), h ▸ hp⟩
      · rcases mem_of_mem_takeWhile h with ⟨h1, h2⟩
        exact ⟨List.mem_cons.mpr (Or.inr h1), h2⟩
    · rw [List.takeWhile_cons, if_neg hp] at h
      simp at h

theorem takeWhile_eq_self_of_all {α : Type*} {p : α → Bool} :
    ∀ {l : List α}, (∀ x ∈ l, p x) → l.takeWhile p = l
  | [], _ => rfl
  | e :: rest, h => by
    rw [List.takeWhile_cons, if_pos (h e (List.mem_cons_self e rest))]
    rw [takeWhile_eq_self_of_all (fun x hx => h x (List.mem_cons_of_mem e hx))]

/-- Positivity of candidate magnitudes when the spectrum is nonnegative
(squared magnitudes in the source): a candidate strictly exceeds its left
neighbour, which is a spectrum value `≥ 0`. -/
theorem peakCandidates_pos {mags : List ℚ} {minV : ℚ} (h0 : ∀ v ∈ mags, 0 ≤ v)
    {k : Nat} (hk : k ∈ peakCandidates mags minV) : 0 < mags.getD k 0 := by
  simp only [peakCandidates, List.mem_filter, List.mem_range, Bool.and_eq_true,
    decide_eq_true_eq] at hk
  obtain ⟨hkr, ⟨⟨⟨⟨⟨⟨h2, hlen⟩, hmin⟩, hl1⟩, hr1⟩, hl2⟩, hr2⟩⟩ := hk
  have hlt : k - 1 < mags.length := by omega
  have hmem : mags.getD (k - 1) 0 ∈ mags := by
    rw [List.getD_eq_getElem mags 0 hlt]
    exact List.getElem_mem hlt
  exact lt_of_le_of_lt (h0 _ hmem) hl1

/-- Invariant of the insertion array after processing a list of bins:
fixed length, sorted descending, nonnegative slots, every positive slot is
a processed bin with its true magnitude, and every processed bin is either
still present or dominated by the whole array. -/
structure PeakInv (mags : List ℚ) (top : Nat) (processed : List Nat)
    (st : List (ℚ × Nat)) : Prop where
  len : st.length = top
  sorted : SortedDesc st
  nonneg : ∀ e ∈ st, 0 ≤ e.1
  slots : ∀ e ∈ st, 0 < e.1 → ∃ k ∈ processed, e = (mags.getD k 0, k)
  dom : ∀ k ∈ processed, (mags.getD k 0, k) ∈ st ∨ ∀ e ∈ st, mags.getD k 0 ≤ e.1

theorem peakInv_step {mags : List ℚ} {top : Nat} {processed : List Nat}
    {st : List (ℚ × Nat)} (inv : PeakInv mags top processed st)
    (k : Nat) (hk0 : 0 < mags.getD k 0) :
    PeakInv mags top (processed ++ [k]) (insertPeakRec (mags.getD k 0) k st) := by
  refine ⟨?_, sortedDesc_insertPeakRec inv.sorted, ?_, ?_, ?_⟩
  · rw [length_insertPeakRec]
    exact inv.len
  · intro e he
    rcases mem_insertPeakRec he with he | he
    · rw [he]
      exact le_of_lt hk0
    · exact inv.nonneg e he
  · intro e he hep
    rcases mem_insertPeakRec he with he | he
    · exact ⟨k, by simp, by rw [he]⟩
    · rcases inv.slots e he hep with ⟨k', hk', he'⟩
      exact ⟨k', List.mem_append.mpr (Or.inl hk'), he'⟩
  · intro k' hk'
    rcases List.mem_append.mp hk' with hk' | hk'
    · rcases inv.dom k' hk' with hm | hall
      · rcases insertPeakRec_preserve inv.sorted hm with h | h
        · exact Or.inl h
        · exact Or.inr h
      · right
        intro e he
        rcases mem_insertPeakRec he with hea | hest
        · rcases insertPeakRec_cases (mags.getD k 0) k st with ⟨heq, _⟩ | ⟨_, e', he', hlt⟩
          · rw [heq] at he
            exact hall e he
          · rw [hea]
            exact le_of_lt (lt_of_le_of_lt (hall e' he') hlt)
        · exact hall e hest
    · have hkk : k' = k := by simpa using hk'
      subst hkk
      rcases insertPeakRec_cases (mags.getD k' 0) k' st with ⟨heq, hall⟩ | ⟨hm, _⟩
      · right
        intro e he
        rw [heq] at he
        exact hall e he
      · exact Or.inl hm

theorem peakInv_foldl {mags : List ℚ} {top : Nat} :
    ∀ (cs processed : List Nat) (st : List (ℚ × Nat)),
      (∀ k ∈ cs, 0 < mags.getD k 0) → PeakInv mags top processed st →
      PeakInv mags top (processed ++ cs)
        (cs.foldl (fun st k => insertPeakRec (mags.getD k 0) k st) st)
  | [], processed, st, _, inv => by simpa using inv
  | k :: cs', processed, st, hpos, inv => by
    have step := peakInv_step inv k (hpos k (List.mem_cons_self k cs'))
    have rec := peakInv_foldl cs' (processed ++ [k])
      (insertPeakRec (mags.getD k 0) k st)
      (fun k' hk' => hpos k' (List.mem_cons_of_mem k hk')) step
    simpa [List.append_assoc] using rec

theorem peakInv_replicate (mags : List ℚ) (top : Nat) :
    PeakInv mags top [] (List.replicate top ((0 : ℚ), (0 : Nat))) := by
  refine ⟨by simp, ?_, ?_, ?_, by simp⟩
  · induction top with
    | zero => simp [SortedDesc]
    | succ n ih =>
      rw [List.replicate_succ]
      refine List.pairwise_cons.mpr ⟨?_, ih⟩
      intro y hy
      rw [List.eq_of_mem_replicate hy]
  · intro e he
    rw [List.eq_of_mem_replicate he]
  · intro e he hep
    rw [List.eq_of_mem_replicate he] at hep
    exact absurd hep (by norm_num)

/-- C7 (amended): the worker.js peak picker obeys the claimed policy — a
bin is a candidate iff it clears the noise floor and strictly exceeds all
four ±1/±2 neighbours (the scan only visits bins with a complete
neighbourhood); only candidates are returned; at most `top` bins are
returned; and a candidate is dropped only when the array is full of bins
at least as large.  The hypothesis `0 ≤ v` reflects that the source's
magnitudes are sums of squares.  (The second-variant picker in
src/index.js has no local-max test or noise floor — see its
counterexample.) -/
theorem makePeaks_policy (mags : List ℚ) (minV : ℚ) (top : Nat)
    (h0 : ∀ v ∈ mags, 0 ≤ v) :
    (∀ k : Nat, k ∈ peakCandidates mags minV ↔
      2 ≤ k ∧ k + 2 < mags.length ∧ minV ≤ mags.getD k 0 ∧
      mags.getD (k - 1) 0 < mags.getD k 0 ∧ mags.getD (k + 1) 0 < mags.getD k 0 ∧
      mags.getD (k - 2) 0 < mags.getD k 0 ∧ mags.getD (k + 2) 0 < mags.getD k 0) ∧
    (∀ j ∈ makePeaks mags minV top, j ∈ peakCandidates mags minV) ∧
    (makePeaks mags minV top).length ≤ top ∧
    (∀ k ∈ peakCandidates mags minV, k ∉ makePeaks mags minV top →
      (makePeaks mags minV top).length = top ∧
      ∀ j ∈ makePeaks mags minV top, mags.getD k 0 ≤ mags.getD j 0) := by
  have hinv : PeakInv mags top (peakCandidates mags minV)
      ((peakCandidates mags minV).foldl
        (fun st k => insertPeakRec (mags.getD k 0) k st)
        (List.replicate top ((0 : ℚ), (0 : Nat)))) := by
    have := @peakInv_foldl mags top (peakCandidates mags minV) []
      (List.replicate top ((0 : ℚ), (0 : Nat)))
      (fun k hk => peakCandidates_pos h0 hk) (peakInv_replicate mags top)
    simpa using this
  set stF := (peakCandidates mags minV).foldl
    (fun st k => insertPeakRec (mags.getD k 0) k st)
    (List.replicate top ((0 : ℚ), (0 : Nat))) with hstF
  have hmk : makePeaks mags minV top =
      (stF.takeWhile (fun e => decide (0 < e.1))).map Prod.snd := rfl
  refine ⟨?_, ?_, ?_, ?_⟩
  · intro k
    simp only [peakCandidates, List.mem_filter, List.mem_range, Bool.and_eq_true,
      decide_eq_true_eq]
    constructor
    · rintro ⟨hkr, ⟨⟨⟨⟨⟨⟨h2, hlen⟩, hmin⟩, hl1⟩, hr1⟩, hl2⟩, hr2⟩⟩
      exact ⟨h2, hlen, hmin, hl1, hr1, hl2, hr2⟩
    · rintro ⟨h2, hlen, hmin, hl1, hr1, hl2, hr2⟩
      exact ⟨by omega, ⟨⟨⟨⟨⟨⟨h2, hlen⟩, hmin⟩, hl1⟩, hr1⟩, hl2⟩, hr2⟩⟩
  · intro j hj
    rw [hmk] at hj
    rcases List.mem_map.mp hj with ⟨e, he, hej⟩
    rcases mem_of_mem_takeWhile he with ⟨hest, hep⟩
    rcases hinv.slots e hest (by simpa using hep) with ⟨k, hk, hek⟩
    rw [← hej, hek]
    exact hk
  · rw [hmk, List.length_map]
    calc (stF.takeWhile (fun e => decide (0 < e.1))).length
        ≤ stF.length := (List.takeWhile_sublist _).length_le
      _ = top := hinv.len
  · intro k hk hkn
    have hk0 : 0 < mags.getD k 0 := peakCandidates_pos h0 hk
    have hall : ∀ e ∈ stF, mags.getD k 0 ≤ e.1 := by
      rcases hinv.dom k hk with hm | hall
      · exfalso
        apply hkn
        rw [hmk]
        refine List.mem_map.mpr ⟨(mags.getD k 0, k), ?_, rfl⟩
        exact mem_takeWhile_pos_of_mem hk0 hinv.sorted hm
      · exact hall
    have htw : stF.takeWhile (fun e => decide (0 < e.1)) = stF :=
      takeWhile_eq_self_of_all
        (fun e he => by simpa using lt_of_lt_of_le hk0 (hall e he))
    constructor
    · rw [hmk, List.length_map, htw]
      exact hinv.len
    · intro j hj
      rw [hmk] at hj
      rcases List.mem_map.mp hj with ⟨e, he, hej⟩
      rcases mem_of_mem_takeWhile he with ⟨hest, hep⟩
      rcases hinv.slots e hest (by simpa using hep) with ⟨k', _, hek⟩
      have : e.1 = mags.getD j 0 := by
        rw [hek] at hej ⊢
        simp only at hej
        rw [hej]
      rw [← this]
      exact hall e hest

/-- Concrete instance of the peak-picker policy theorem: on the spectrum
`[0, 0, 5, 0, 0, 1, 0]` with noise floor 1, bin 2 is returned by
`makePeaks` and is certified a candidate. -/
theorem makePeaks_policy_witness :
    2 ∈ peakCandidates [0, 0, 5, 0, 0, 1, 0] 1 :=
  (makePeaks_policy [0, 0, 5, 0, 0, 1, 0] 1 16 (by decide)).2.1 2 (by decide)

/-! ## The landmark hasher of src/index.js (first variant) and its
translation invariance.  `WINDOW = 4096`, `HOP = 512`, `TARGET_ZONE = 55`,
`MAX_PAIRS = 6`, `FREQ_Q = 10`, `DT_Q = 3`. -/

/-- JS `Math.round`: round half toward `+∞`. -/
def jsRound (q : ℚ) : Int := ⌊q + mkRat 1 2⌋

/-- The STFT frame walk of src/index.js `stftMagnitudes`
(`for (pos = 0; pos + WINDOW <= signal.length; pos += HOP)`): the list of
raw 4096-sample windows, hop 512. -/
def frames (S : List ℚ) : List (List ℚ) :=
  if h : 4096 ≤ S.length then S.take 4096 :: frames (S.drop 512) else []
termination_by S.length
decreasing_by simp only [List.length_drop]; omega

/-- src/index.js `stftMagnitudes` with the per-frame numeric kernel (Hann
window, FFT, `log1p ∘ hypot`) abstracted as `φ`: it is a pure function of
one 4096-sample window, which is all the translation-invariance claim
depends on (the floating-point FFT itself is outside the embedding). -/
def stftMagnitudesW (φ : List ℚ → List ℚ) (S : List ℚ) : List (List ℚ) :=
  (frames S).map φ

/-- The 3-register scan of src/index.js `topKIndicesFloat32` in its
generic branch — the one the pipeline actually runs, since it is called
with `TOP_PEAKS = 16 ≥ 3` yet only ever tracks three registers.  Registers
start at `(-1, -Infinity)`; `-Infinity` is modelled as `⊥ : WithBot ℚ`. -/
structure Top3 where
  i1 : Int
  v1 : WithBot ℚ
  i2 : Int
  v2 : WithBot ℚ
  i3 : Int
  v3 : WithBot ℚ

/-- One step of the 3-register scan (`if (v > v1) ... else if (v > v2) ...
else if (v > v3) ...`). -/
def top3Step (s : Top3) (iv : Nat × ℚ) : Top3 :=
  let v : WithBot ℚ := (iv.2 : ℚ)
  if s.v1 < v then ⟨(iv.1 : Int), v, s.i1, s.v1, s.i2, s.v2⟩
  else if s.v2 < v then ⟨s.i1, s.v1, (iv.1 : Int), v, s.i2, s.v2⟩
  else if s.v3 < v then ⟨s.i1, s.v1, s.i2, s.v2, (iv.1 : Int), v⟩
  else s

/-- src/index.js `topKIndicesFloat32` (generic branch): scan, then push
the registers that hold a real index (`if (i1 >= 0) out.push(i1); ...`). -/
def topKIndices3 (arr : List ℚ) : List Int :=
  let s := arr.enum.foldl top3Step ⟨-1, ⊥, -1, ⊥, -1, ⊥⟩
  [s.i1, s.i2, s.i3].filter (fun i => decide (0 ≤ i))

/-- Per-frame peak list of src/index.js `topPeaksPerFrame`: sample every
`max 1 (len / 200)`-th bin, take the median of the sorted sample, subtract
it clamped at 0, run the top-k scan, refine each kept bin by the parabolic
vertex `i + 0.5 (L - R) / (L - 2C + R)` (denominator `|| 1e-9`). -/
def rowPeaks (row : List ℚ) : List ℚ :=
  let step := max 1 (row.length / 200)
  let sample := (List.range row.length).filterMap
    (fun i => if i % step = 0 then some (row.getD i 0) else none)
  let sorted := stableSort (fun a b => decide (a ≤ b)) sample
  let median := sorted.getD (sorted.length / 2) 0
  let whitened := row.map (fun v => if 0 < v - median then v - median else 0)
  (topKIndices3 whitened).map (fun (i : Int) =>
    let L := if 1 ≤ i then whitened.getD (i - 1).toNat 0 else 0
    let C := whitened.getD i.toNat 0
    let R := whitened.getD (i + 1).toNat 0
    let denom := L - 2 * C + R
    let denomAdj := if denom = 0 then mkRat 1 1000000000 else denom
    (i : ℚ) + mkRat 1 2 * (L - R) / denomAdj)

/-- src/index.js `topPeaksPerFrame`: the per-row peak picker mapped over
the frames. -/
def topPeaksPerFrame (fs : List (List ℚ)) : List (List ℚ) := fs.map rowPeaks

/-- A landmark `{key, t}`.  The source formats the key as the string
`` `${q1}-${q2}-${qdt}` ``; the quantized triple is its content. -/
structure Landmark where
  key : Int × Int × Int
  t : Nat
deriving DecidableEq

/-- `Math.max(0, Math.min(mags[t].length - 1, Math.round(f)))`. -/
def clampBin (len : Nat) (f : ℚ) : Nat :=
  (max 0 (min ((len : Int) - 1) (jsRound f))).toNat

/-- `(mags[t][b] || 1e-9)`: the clamped-bin magnitude, `1e-9` when the
slot is `0` (falsy) or the row is empty. -/
def magFactor (row : List ℚ) (f : ℚ) : ℚ :=
  let v := row.getD (clampBin row.length f) 0
  if v = 0 then mkRat 1 1000000000 else v

/-- Target-candidate gathering for one anchor `f1` at frame `t`
(src/index.js `makeHashes` inner loops): `dt = 1..55`, breaking when
`t + dt` leaves the peak list, each peak `f2` of frame `t+dt` scored by
the product of the clamped-bin magnitudes of both frames. -/
def anchorCands (peaks mags : List (List ℚ)) (t : Nat) (f1 : ℚ) : List (ℚ × Nat × ℚ) :=
  ((List.range' 1 55).takeWhile (fun dt => decide (t + dt < peaks.length))).flatMap
    (fun dt =>
      (peaks.getD (t + dt) []).map
        (fun f2 => (f2, dt, magFactor (mags.getD t []) f1 * magFactor (mags.getD (t + dt) []) f2)))

/-- Landmarks emitted for one anchor: candidates sorted by score
descending (stable), the `MAX_PAIRS = 6` best kept, each packed as the
quantized key `(round(f1/10), round(f2/10), round(dt/3))` with anchor
time `t`. -/
def anchorHashes (peaks mags : List (List ℚ)) (t : Nat) (f1 : ℚ) : List Landmark :=
  ((stableSort (fun x y => decide (y.2.2 ≤ x.2.2)) (anchorCands peaks mags t f1)).take 6).map
    (fun c => ⟨(jsRound (f1 / 10), jsRound (c.1 / 10), jsRound ((c.2.1 : ℚ) / 3)), t⟩)

/-- src/index.js `makeHashes`: frames in order, each frame's anchors in
peak order. -/
def makeHashes (peaks mags : List (List ℚ)) : List Landmark :=
  (List.range peaks.length).flatMap
    (fun t => (peaks.getD t []).flatMap (fun f1 => anchorHashes peaks mags t f1))

/-- The full landmark pipeline of src/index.js (first variant). -/
def landmarksOf (φ : List ℚ → List ℚ) (S : List ℚ) : List Landmark :=
  makeHashes (topPeaksPerFrame (stftMagnitudesW φ S)) (stftMagnitudesW φ S)

theorem flatMap_ext {α β : Type*} {f g : α → List β} :
    ∀ {l : List α}, (∀ x ∈ l, f x = g x) → l.flatMap f = l.flatMap g
  | [], _ => rfl
  | x :: rest, h => by
    simp only [List.flatMap_cons]
    rw [h x (List.mem_cons_self x rest), flatMap_ext (fun y hy => h y (List.mem_cons_of_mem x hy))]

theorem filter_flatMap {α β : Type*} (p : β → Bool) (f : α → List β) :
    ∀ l : List α, (l.flatMap f).filter p = l.flatMap (fun x => (f x).filter p)
  | [] => rfl
  | x :: rest => by
    simp only [List.flatMap_cons, List.filter_append]
    rw [filter_flatMap p f rest]

theorem map_flatMap {α β γ : Type*} (g : β → γ) (f : α → List β) :
    ∀ l : List α, (l.flatMap f).map g = l.flatMap (fun x => (f x).map g)
  | [] => rfl
  | x :: rest => by
    simp only [List.flatMap_cons, List.map_append]
    rw [map_flatMap g f rest]

theorem takeWhile_ext {α : Type*} {p q : α → Bool} :
    ∀ {l : List α}, (∀ x ∈ l, p x = q x) → l.takeWhile p = l.takeWhile q
  | [], _ => rfl
  | x :: rest, h => by
    rw [List.takeWhile_cons, List.takeWhile_cons, h x (List.mem_cons_self x rest)]
    by_cases hq : q x = true
    · rw [hq]
      simp only [if_true]
      rw [takeWhile_ext (fun y hy => h y (List.mem_cons_of_mem x hy))]
    · rw [Bool.not_eq_true] at hq
      rw [hq]
      simp

theorem frames_eq (S : List ℚ) :
    frames S = if 4096 ≤ S.length then S.take 4096 :: frames (S.drop 512) else [] := by
  rw [frames]
  by_cases h : 4096 ≤ S.length <;> simp [h]

theorem frames_drop_hop (S : List ℚ) : frames (S.drop 512) = (frames S).drop 1 := by
  by_cases h : 4096 ≤ S.length
  · rw [frames_eq S, if_pos h]
    simp
  · have h2 : ¬ 4096 ≤ (S.drop 512).length := by
      simp only [List.length_drop]
      omega
    rw [frames_eq (S.drop 512), if_neg h2, frames_eq S, if_neg h]
    simp

theorem frames_drop (k : Nat) (S : List ℚ) :
    frames (S.drop (k * 512)) = (frames S).drop k := by
  induction k generalizing S with
  | zero => simp
  | succ n ih =>
    have harith : (n + 1) * 512 = 512 + n * 512 := by ring
    rw [harith, ← List.drop_drop, ih (S.drop 512), frames_drop_hop, List.drop_drop,
      Nat.add_comm 1 n]

theorem getD_drop {α : Type*} (l : List α) (k t : Nat) (d : α) :
    (l.drop k).getD t d = l.getD (k + t) d := by
  rw [List.getD_eq_getElem?_getD, List.getD_eq_getElem?_getD, List.getElem?_drop]

theorem stftMagnitudesW_drop (φ : List ℚ → List ℚ) (S : List ℚ) (k : Nat) :
    stftMagnitudesW φ (S.drop (k * 512)) = (stftMagnitudesW φ S).drop k := by
  rw [stftMagnitudesW, stftMagnitudesW, frames_drop, List.map_drop]

theorem topPeaksPerFrame_drop (fs : List (List ℚ)) (k : Nat) :
    topPeaksPerFrame (fs.drop k) = (topPeaksPerFrame fs).drop k := by
  rw [topPeaksPerFrame, topPeaksPerFrame, List.map_drop]

theorem anchorCands_drop (peaks mags : List (List ℚ)) (k t : Nat) (f1 : ℚ) :
    anchorCands (peaks.drop k) (mags.drop k) t f1 = anchorCands peaks mags (k + t) f1 := by
  rw [anchorCands, anchorCands]
  rw [@takeWhile_ext _ _ (fun dt => decide (k + t + dt < peaks.length)) _
    (fun dt _ => by simp only [List.length_drop, decide_eq_decide]; omega)]
  apply flatMap_ext
  intro dt _
  rw [getD_drop, getD_drop, getD_drop, ← Nat.add_assoc]

theorem anchorHashes_drop (peaks mags : List (List ℚ)) (k t : Nat) (f1 : ℚ) :
    anchorHashes (peaks.drop k) (mags.drop k) t f1 =
      (anchorHashes peaks mags (k + t) f1).map (fun lm => ⟨lm.key, t⟩) := by
  rw [anchorHashes, anchorHashes, anchorCands_drop, List.map_map]
  rfl

theorem t_of_mem_anchorHashes {peaks mags : List (List ℚ)} {t : Nat} {f1 : ℚ}
    {lm : Landmark} (h : lm ∈ anchorHashes peaks mags t f1) : lm.t = t := by
  rcases List.mem_map.mp h with ⟨c, _, hc⟩
  rw [← hc]

theorem t_lt_of_mem_makeHashes {peaks mags : List (List ℚ)} {lm : Landmark}
    (h : lm ∈ makeHashes peaks mags) : lm.t < peaks.length := by
  rw [makeHashes] at h
  rcases List.mem_flatMap.mp h with ⟨t, ht, h2⟩
  rcases List.mem_flatMap.mp h2 with ⟨f1, _, h3⟩
  rw [t_of_mem_anchorHashes h3]
  exact List.mem_range.mp ht

theorem flatMap_nil_fun {α β : Type*} :
    ∀ l : List α, l.flatMap (fun _ => ([] : List β)) = []
  | [] => rfl
  | _ :: rest => by
    simp only [List.flatMap_cons, List.nil_append]
    exact flatMap_nil_fun rest

theorem makeHashes_drop (peaks mags : List (List ℚ)) (k : Nat) :
    makeHashes (peaks.drop k) (mags.drop k) =
      ((makeHashes peaks mags).filter (fun lm => decide (k ≤ lm.t))).map
        (fun lm => ⟨lm.key, lm.t - k⟩) := by
  by_cases hk : k ≤ peaks.length
  · rw [makeHashes, makeHashes, List.length_drop]
    have hsplit : List.range peaks.length =
        List.range k ++ (List.range (peaks.length - k)).map (fun x => k + x) := by
      rw [← List.range_add]
      congr 1
      omega
    rw [hsplit, List.flatMap_append, List.filter_append, List.map_append]
    have h1 : ((List.range k).flatMap
        (fun t => (peaks.getD t []).flatMap (fun f1 => anchorHashes peaks mags t f1))).filter
          (fun lm => decide (k ≤ lm.t)) = [] := by
      rw [List.filter_eq_nil_iff]
      intro lm hlm
      rcases List.mem_flatMap.mp hlm with ⟨t, ht, h2⟩
      rcases List.mem_flatMap.mp h2 with ⟨f1, _, h3⟩
      rw [t_of_mem_anchorHashes h3]
      simpa using List.mem_range.mp ht
    rw [h1]
    simp only [List.map_nil, List.nil_append]
    rw [List.flatMap_map, filter_flatMap, map_flatMap]
    apply flatMap_ext
    intro t' _
    rw [getD_drop, filter_flatMap, map_flatMap]
    apply flatMap_ext
    intro f1 _
    have hfil : (anchorHashes peaks mags (k + t') f1).filter (fun lm => decide (k ≤ lm.t)) =
        anchorHashes peaks mags (k + t') f1 := by
      rw [List.filter_eq_self]
      intro lm hlm
      rw [t_of_mem_anchorHashes hlm]
      simp
    rw [hfil, anchorHashes_drop]
    apply List.map_congr_left
    intro lm hlm
    rw [t_of_mem_anchorHashes hlm]
    simp
  · have hdrop : peaks.drop k = [] := List.drop_eq_nil_of_le (by omega)
    have hlhs : makeHashes (peaks.drop k) (mags.drop k) = [] := by
      rw [makeHashes, hdrop]
      simp
    have hfil : (makeHashes peaks mags).filter (fun lm => decide (k ≤ lm.t)) = [] := by
      rw [List.filter_eq_nil_iff]
      intro lm hlm
      have := t_lt_of_mem_makeHashes hlm
      simp only [decide_eq_true_eq]
      omega
    rw [hlhs, hfil]
    simp

/-- C8: translation invariance of the landmark hasher.  For every sample
buffer `S`, every per-frame magnitude kernel `φ`, and every shift by
`k · hop = k · 512` samples, the landmark multiset of `S[k·512:]` equals
the landmark multiset of `S` restricted to anchors at frame `t ≥ k`, with
each anchor time shifted by `−k` (the keys — which depend only on frame
differences — are unchanged).  Proved as an equality of the full landmark
lists, which is stronger than the multiset statement. -/
theorem landmarks_translation_invariance (φ : List ℚ → List ℚ) (S : List ℚ) (k : Nat) :
    landmarksOf φ (S.drop (k * 512)) =
      ((landmarksOf φ S).filter (fun lm => decide (k ≤ lm.t))).map
        (fun lm => ⟨lm.key, lm.t - k⟩) ∧
    Multiset.ofList (landmarksOf φ (S.drop (k * 512))) =
      Multiset.ofList
        (((landmarksOf φ S).filter (fun lm => decide (k ≤ lm.t))).map
          (fun lm => ⟨lm.key, lm.t - k⟩)) := by
  have hlist : landmarksOf φ (S.drop (k * 512)) =
      ((landmarksOf φ S).filter (fun lm => decide (k ≤ lm.t))).map
        (fun lm => ⟨lm.key, lm.t - k⟩) := by
    rw [landmarksOf, landmarksOf, stftMagnitudesW_drop, topPeaksPerFrame_drop]
    exact makeHashes_drop _ _ k
  exact ⟨hlist, by rw [hlist]⟩

/-! ## Clip lookup (src/match.js, clip-lookup variant, lines 503-720):
`SAMPLE_RATE = 44100`, `WINDOW = 4096`, `HOP = 2048`, `TOP_PEAKS = 3`,
`TARGET_ZONE = 16`, `MAX_PAIRS = 2`; magnitudes are plain `hypot` (no log
compression) and keys are unquantized. -/

/-- The frame walk of the clip-lookup variant (`HOP = 2048`). -/
def framesV3 (S : List ℚ) : List (List ℚ) :=
  if h : 4096 ≤ S.length then S.take 4096 :: framesV3 (S.drop 2048) else []
termination_by S.length
decreasing_by simp only [List.length_drop]; omega

/-- `stftMagnitudes` of the clip-lookup variant with its per-frame numeric
kernel (Hann window, FFT, `hypot`) abstracted as `φ`. -/
def stftMagnitudesV3 (φ : List ℚ → List ℚ) (S : List ℚ) : List (List ℚ) :=
  (framesV3 S).map φ

/-- `topKIndices` of the clip-lookup variant: a true stable top-`k` of the
bins by value (`arr.map((v, i) => ({v, i})).sort((a, b) => b.v - a.v)
.slice(0, k).map(x => x.i)`; the trailing `filter(i => i >= 0)` never
drops a real index). -/
def topKIndicesV3 (arr : List ℚ) (k : Nat) : List Nat :=
  ((stableSort (fun x y => decide (y.2 ≤ x.2)) arr.enum).take k).map Prod.fst

/-- Per-frame peaks of the clip-lookup variant: the same sampled-median
whitening and parabolic refinement as the indexing pipeline, over the true
top-3 bins. -/
def rowPeaksV3 (row : List ℚ) : List ℚ :=
  let step := max 1 (row.length / 200)
  let sample := (List.range row.length).filterMap
    (fun i => if i % step = 0 then some (row.getD i 0) else none)
  let sorted := stableSort (fun a b => decide (a ≤ b)) sample
  let median := sorted.getD (sorted.length / 2) 0
  let whitened := row.map (fun v => if 0 < v - median then v - median else 0)
  (topKIndicesV3 whitened 3).map (fun i =>
    let L := if 1 ≤ i then whitened.getD (i - 1) 0 else 0
    let C := whitened.getD i 0
    let R := whitened.getD (i + 1) 0
    let denom := L - 2 * C + R
    let denomAdj := if denom = 0 then mkRat 1 1000000000 else denom
    (i : ℚ) + mkRat 1 2 * (L - R) / denomAdj)

def topPeaksPerFrameV3 (fs : List (List ℚ)) : List (List ℚ) := fs.map rowPeaksV3

/-- Target gathering of the clip-lookup `makeHashes`: `dt = 1..16`. -/
def anchorCandsV3 (peaks mags : List (List ℚ)) (t : Nat) (f1 : ℚ) : List (ℚ × Nat × ℚ) :=
  ((List.range' 1 16).takeWhile (fun dt => decide (t + dt < peaks.length))).flatMap
    (fun dt =>
      (peaks.getD (t + dt) []).map
        (fun f2 => (f2, dt, magFactor (mags.getD t []) f1 * magFactor (mags.getD (t + dt) []) f2)))

/-- Landmarks for one anchor of the clip-lookup `makeHashes`: top
`MAX_PAIRS = 2` by score, key `(round(f1), round(f2), dt)` unquantized. -/
def anchorHashesV3 (peaks mags : List (List ℚ)) (t : Nat) (f1 : ℚ) : List Landmark :=
  ((stableSort (fun x y => decide (y.2.2 ≤ x.2.2)) (anchorCandsV3 peaks mags t f1)).take 2).map
    (fun c => ⟨(jsRound f1, jsRound c.1, (c.2.1 : Int)), t⟩)

def makeHashesV3 (peaks mags : List (List ℚ)) : List Landmark :=
  (List.range peaks.length).flatMap
    (fun t => (peaks.getD t []).flatMap (fun f1 => anchorHashesV3 peaks mags t f1))

/-- `fingerprintPath` of the clip-lookup variant: how a QUERY clip is
hashed. -/
def clipLandmarks (φ : List ℚ → List ℚ) (S : List ℚ) : List Landmark :=
  makeHashesV3 (topPeaksPerFrameV3 (stftMagnitudesV3 φ S)) (stftMagnitudesV3 φ S)

/-- Modelled from the spec: the companion index builder of the clip-lookup
matcher is not among the sources (only the matcher whose header notes
"Parameters shared with fingerprint builder" is).  Per the spec — "hash
the clip into landmarks exactly as during indexing" and "fixing these
across build and query is mandatory" — the indexer hashes tracks with the
identical pipeline. -/
def indexerLandmarks (φ : List ℚ → List ℚ) (S : List ℚ) : List Landmark :=
  clipLandmarks φ S

/-- match.js (clip-lookup variant) `matchHashesToIndex`: for each query
hash `(key, tq)` and each posting `(trackId, ti)` of that key's bucket,
one vote for `(trackId, ti - tq)`, in nested insertion-ordered maps. -/
def matchHashesToIndex {κ : Type} [DecidableEq κ] (queryHashes : List (κ × Int))
    (lookupIdx : List (κ × List (Id × Int))) : List (Id × List (Int × Nat)) :=
  queryHashes.foldl
    (fun acc kt =>
      match look kt.1 lookupIdx with
      | none => acc
      | some entries =>
        entries.foldl
          (fun acc2 p =>
            upsert p.1
              (fun offs => upsert (p.2 - kt.2) (fun c => c.getD 0 + 1) (offs.getD [])) acc2)
          acc)
    []

/-- The flattened vote stream: one `(track, ti - tq)` event per
(query hash, posting) pair with a matching key, in loop order. -/
def voteEvents {κ : Type} [DecidableEq κ] (queryHashes : List (κ × Int))
    (lookupIdx : List (κ × List (Id × Int))) : List (Id × Int) :=
  queryHashes.flatMap
    (fun kt => ((look kt.1 lookupIdx).getD []).map (fun p => (p.1, p.2 - kt.2)))

/-- The vote count the matcher holds for `(track, off)`. -/
def voteCount (track : Id) (off : Int) (acc : List (Id × List (Int × Nat))) : Nat :=
  ((look track acc).getD [] |> look off).getD 0

/-- One result row of `summarizeMatches` (the fields the claim concerns;
the cosmetic `file` name lookup, display `matchRatio` and top-8 offsets
listing are omitted). -/
structure MatchResult where
  trackId : Id
  bestOffset : Option Int
  votes : Nat
deriving DecidableEq

/-- The per-track reduction of `summarizeMatches`: `bestOff = null,
bestCount = 0; for ([off, cnt]) if (cnt > bestCount) {...}`. -/
def bestOfOpt (offsets : List (Int × Nat)) : Option Int × Nat :=
  offsets.foldl (fun bc oc => if bc.2 < oc.2 then (some oc.1, oc.2) else bc)
    ((none : Option Int), 0)

/-- match.js `summarizeMatches`: reduce each track to its best offset and
count, then sort by votes descending (`(a, b) => b.votes - a.votes`,
stable). -/
def summarizeMatches (acc : List (Id × List (Int × Nat))) : List MatchResult :=
  stableSort (fun x y => decide (y.votes ≤ x.votes))
    (acc.map (fun te => ⟨te.1, (bestOfOpt te.2).1, (bestOfOpt te.2).2⟩))

/-- `matchFileAgainstIndex`: the summary sliced to the top `topN`. -/
def matchTopN {κ : Type} [DecidableEq κ] (queryHashes : List (κ × Int))
    (lookupIdx : List (κ × List (Id × Int))) (topN : Nat) : List MatchResult :=
  (summarizeMatches (matchHashesToIndex queryHashes lookupIdx)).take topN

theorem foldl_flatMap {α β γ : Type*} (f : γ → β → γ) (g : α → List β) :
    ∀ (l : List α) (a : γ),
      (l.flatMap g).foldl f a = l.foldl (fun a x => (g x).foldl f a) a
  | [], _ => rfl
  | x :: rest, a => by
    simp only [List.flatMap_cons, List.foldl_append, List.foldl_cons]
    exact foldl_flatMap f g rest _

theorem foldl_ext {α β : Type*} {f g : β → α → β} (h : ∀ b a, f b a = g b a) :
    ∀ (l : List α) (b : β), l.foldl f b = l.foldl g b
  | [], _ => rfl
  | x :: rest, b => by
    simp only [List.foldl_cons, h]
    exact foldl_ext h rest _

/-- The nested accumulation of `matchHashesToIndex` equals the flat fold
over the vote-event stream. -/
theorem matchHashesToIndex_eq_foldl {κ : Type} [DecidableEq κ]
    (queryHashes : List (κ × Int)) (lookupIdx : List (κ × List (Id × Int))) :
    matchHashesToIndex queryHashes lookupIdx =
      (voteEvents queryHashes lookupIdx).foldl
        (fun acc ev =>
          upsert ev.1 (fun offs => upsert ev.2 (fun c => c.getD 0 + 1) (offs.getD [])) acc)
        [] := by
  rw [matchHashesToIndex, voteEvents, foldl_flatMap]
  apply foldl_ext (fun acc kt => ?_)
  cases hl : look kt.1 lookupIdx with
  | none => simp [hl]
  | some entries =>
    simp only [hl, Option.getD_some]
    rw [List.foldl_map]

theorem voteCount_step (track : Id) (off : Int) (acc : List (Id × List (Int × Nat)))
    (ev : Id × Int) :
    voteCount track off
      (upsert ev.1 (fun offs => upsert ev.2 (fun c => c.getD 0 + 1) (offs.getD [])) acc) =
    voteCount track off acc + (if ev = (track, off) then 1 else 0) := by
  rw [voteCount, voteCount]
  by_cases h1 : track = ev.1
  · rw [← h1, look_upsert_self]
    simp only [Option.getD_some]
    by_cases h2 : off = ev.2
    · rw [← h2, look_upsert_self]
      have hev : ev = (track, off) := by
        rw [Prod.ext_iff]
        exact ⟨h1.symm, h2.symm⟩
      rw [if_pos hev]
      simp
    · rw [look_upsert_other h2]
      have hev : ¬ ev = (track, off) := fun he => h2 (by rw [he])
      rw [if_neg hev]
      simp
  · rw [look_upsert_other h1]
    have hev : ¬ ev = (track, off) := fun he => h1 (by rw [he])
    rw [if_neg hev]
    simp

theorem voteCount_foldl (track : Id) (off : Int) :
    ∀ (events : List (Id × Int)) (acc : List (Id × List (Int × Nat))),
      voteCount track off (events.foldl
        (fun acc ev =>
          upsert ev.1 (fun offs => upsert ev.2 (fun c => c.getD 0 + 1) (offs.getD [])) acc)
        acc) =
      voteCount track off acc + events.count (track, off)
  | [], acc => by simp
  | ev :: rest, acc => by
    simp only [List.foldl_cons]
    rw [voteCount_foldl track off rest, voteCount_step]
    rw [List.count_cons]
    by_cases hev : ev = (track, off) <;> simp [hev] <;> omega

/-- Part of C9: the vote map holds, for every `(track, offset)`, exactly
the number of (query hash, posting) pairs with a matching key and that
time difference. -/
theorem voteCount_matchHashesToIndex {κ : Type} [DecidableEq κ]
    (queryHashes : List (κ × Int)) (lookupIdx : List (κ × List (Id × Int)))
    (track : Id) (off : Int) :
    voteCount track off (matchHashesToIndex queryHashes lookupIdx) =
      (voteEvents queryHashes lookupIdx).count (track, off) := by
  rw [matchHashesToIndex_eq_foldl, voteCount_foldl]
  simp [voteCount, look]

theorem bestOfOpt_foldl_le (l : List (Int × Nat)) :
    ∀ b : Option Int × Nat,
      b.2 ≤ (l.foldl (fun bc oc => if bc.2 < oc.2 then (some oc.1, oc.2) else bc) b).2 ∧
      ∀ oc ∈ l, oc.2 ≤ (l.foldl (fun bc oc => if bc.2 < oc.2 then (some oc.1, oc.2) else bc) b).2 := by
  induction l with
  | nil => exact fun b => ⟨le_rfl, by simp⟩
  | cons oc rest ih =>
    intro b
    simp only [List.foldl_cons]
    rcases ih (if b.2 < oc.2 then (some oc.1, oc.2) else b) with ⟨h1, h2⟩
    constructor
    · refine le_trans ?_ h1
      by_cases h : b.2 < oc.2 <;> simp [h] <;> omega
    · intro oc' hoc'
      rcases List.mem_cons.mp hoc' with rfl | hoc'
      · refine le_trans ?_ h1
        by_cases h : b.2 < oc'.2 <;> simp [h] <;> omega
      · exact h2 oc' hoc'

theorem bestOfOpt_foldl_mem (l : List (Int × Nat)) :
    ∀ b : Option Int × Nat,
      l.foldl (fun bc oc => if bc.2 < oc.2 then (some oc.1, oc.2) else bc) b = b ∨
      ∃ oc ∈ l, l.foldl (fun bc oc => if bc.2 < oc.2 then (some oc.1, oc.2) else bc) b =
        (some oc.1, oc.2) := by
  induction l with
  | nil => exact fun b => Or.inl rfl
  | cons oc rest ih =>
    intro b
    simp only [List.foldl_cons]
    rcases ih (if b.2 < oc.2 then (some oc.1, oc.2) else b) with h | h
    · by_cases hb : b.2 < oc.2
      · right
        exact ⟨oc, List.mem_cons_self oc rest, by rw [h, if_pos hb]⟩
      · left
        rw [h, if_neg hb]
    · rcases h with ⟨oc', hoc', h⟩
      exact Or.inr ⟨oc', List.mem_cons_of_mem oc hoc', h⟩

theorem bestOfOpt_le (l : List (Int × Nat)) : ∀ oc ∈ l, oc.2 ≤ (bestOfOpt l).2 :=
  (bestOfOpt_foldl_le l ((none : Option Int), 0)).2

theorem bestOfOpt_mem {l : List (Int × Nat)} (h : (bestOfOpt l).2 ≠ 0) :
    ∃ oc ∈ l, bestOfOpt l = (some oc.1, oc.2) := by
  rcases bestOfOpt_foldl_mem l ((none : Option Int), 0) with h0 | h0
  · exact absurd (congrArg Prod.snd h0) h
  · exact h0

/-- C9: clip-lookup voting.  The query is hashed with the same pipeline
as indexing (the companion indexer is modelled from the spec as the
identical `clipLandmarks`); each (query hash, posting) key match votes
once for `(track, t_track − t_clip)`; each track is reduced to a maximal
offset count, whose offset is reported; the summary is sorted by votes
descending, one row per voted track, and `matchFileAgainstIndex` returns
its first `topN` rows. -/
theorem clip_lookup_matcher_spec {κ : Type} [DecidableEq κ]
    (queryHashes : List (κ × Int)) (lookupIdx : List (κ × List (Id × Int)))
    (acc : List (Id × List (Int × Nat))) (track : Id) (off : Int) (topN : Nat) :
    (∀ (φ : List ℚ → List ℚ) (S : List ℚ), indexerLandmarks φ S = clipLandmarks φ S) ∧
    voteCount track off (matchHashesToIndex queryHashes lookupIdx) =
      (voteEvents queryHashes lookupIdx).count (track, off) ∧
    (∀ r ∈ summarizeMatches acc, ∃ te ∈ acc,
      r.trackId = te.1 ∧ r.votes = (bestOfOpt te.2).2 ∧
      (∀ oc ∈ te.2, oc.2 ≤ r.votes) ∧
      (r.votes ≠ 0 → ∃ o, r.bestOffset = some o ∧ (o, r.votes) ∈ te.2)) ∧
    (summarizeMatches acc).length = acc.length ∧
    (summarizeMatches acc).Pairwise (fun x y => y.votes ≤ x.votes) ∧
    matchTopN queryHashes lookupIdx topN =
      (summarizeMatches (matchHashesToIndex queryHashes lookupIdx)).take topN := by
  refine ⟨fun φ S => rfl, voteCount_matchHashesToIndex queryHashes lookupIdx track off,
    ?_, ?_, ?_, rfl⟩
  · intro r hr
    rw [summarizeMatches, mem_stableSort] at hr
    rcases List.mem_map.mp hr with ⟨te, hte, hr⟩
    refine ⟨te, hte, ?_, ?_, ?_, ?_⟩
    · rw [← hr]
    · rw [← hr]
    · intro oc hoc
      rw [← hr]
      exact bestOfOpt_le te.2 oc hoc
    · intro hv
      have hb : (bestOfOpt te.2).2 ≠ 0 := by
        rw [← hr] at hv
        exact hv
      rcases bestOfOpt_mem hb with ⟨oc, hoc, hbo⟩
      refine ⟨oc.1, ?_, ?_⟩
      · rw [← hr]
        simp only
        rw [hbo]
      · have : (bestOfOpt te.2).2 = oc.2 := by rw [hbo]
        rw [← hr]
        simp only
        rw [this]
        exact hoc
  · rw [summarizeMatches]
    rw [(stableSort_perm _ _).length_eq]
    exact List.length_map _ _
  · rw [summarizeMatches]
    refine (pairwise_stableSort ?_ ?_ _).imp ?_
    · intro a b
      simp only [Bool.or_eq_true, decide_eq_true_eq]
      omega
    · intro a b c
      simp only [decide_eq_true_eq]
      omega
    · intro a b h
      simpa using h

/-! ## Frame property: the matchers only borrow the index.  JS arrays are
mutable heap objects, so the index is modelled as key → reference into a
store of buckets; the matchers are translated threading that store, making
any write explicit, and are proved to return it untouched while computing
the same result as the pure embeddings. -/

/-- A heap of raw-entry buckets, addressed by allocation index. -/
abbrev StoreR := List (List RawEntry)

/-- The duplicate-pass matcher's borrowed view: key → bucket reference. -/
abbrev IndexRefs := List (String × Nat)

def readRef (st : StoreR) (r : Nat) : List RawEntry := st.getD r []

/-- Dereference every bucket of the borrowed index. -/
def materialize (st : StoreR) (idx : IndexRefs) : List (String × List RawEntry) :=
  idx.map (fun kr => (kr.1, readRef st kr.2))

/-- src/match.js `dedupeIndex` threaded through the store: each iteration
only READS the borrowed bucket (`Object.entries(idx)`); every kept posting
is a freshly allocated pair (`dst.push([id, pos])`) in a new output object
(`Object.create(null)`). -/
def dedupeIndexStore (st : StoreR) (idx : IndexRefs) (o : DupOpts) : StoreR × Index :=
  idx.foldl
    (fun acc kr =>
      let bucketRaw := readRef acc.1 kr.2
      if bucketRaw.length < o.minBucket then acc
      else if o.dropAbove < bucketRaw.length then acc
      else
        let bucket := normalizeBucket bucketRaw
        if bucket.length < o.minBucket then acc
        else
          let dst := dedupeScan o.maxBucket [] [] bucket
          if o.minBucket ≤ dst.length then (acc.1, acc.2 ++ [(kr.1, dst)]) else acc)
    (st, [])

/-- src/match.js `findDuplicates` (first variant) threaded through the
store: both passes and the result emission read only the freshly built
`cleaned` object. -/
def findDuplicatesStore (st : StoreR) (idx : IndexRefs) (o : DupOpts) :
    StoreR × List DupResult :=
  let cl := dedupeIndexStore st idx o
  let pm := buildOffsetVotes cl.2 (candidatesOf (buildPairCounts cl.2) (effMinM o.minMatches))
  (cl.1, stableSort leDup (resultsOf pm (effMinM o.minMatches) (effRatio o.minRatio)))

/-- A heap of posting buckets for the clip-lookup matcher. -/
abbrev StoreP := List (List (Id × Int))

/-- The clip-lookup matcher's borrowed view of `indexObj.index`. -/
def materializeP {κ : Type} [DecidableEq κ] (stp : StoreP) (lookupRefs : List (κ × Nat)) :
    List (κ × List (Id × Int)) :=
  lookupRefs.map (fun kr => (kr.1, stp.getD kr.2 []))

/-- match.js `matchHashesToIndex` threaded through the store: buckets are
only read (`indexLookup[key]`), votes accumulate in fresh maps. -/
def matchHashesToIndexStore {κ : Type} [DecidableEq κ] (stp : StoreP)
    (lookupRefs : List (κ × Nat)) (queryHashes : List (κ × Int)) :
    StoreP × List (Id × List (Int × Nat)) :=
  queryHashes.foldl
    (fun acc kt =>
      match look kt.1 lookupRefs with
      | none => acc
      | some r =>
        (acc.1,
          (acc.1.getD r []).foldl
            (fun acc2 p =>
              upsert p.1
                (fun offs => upsert (p.2 - kt.2) (fun c => c.getD 0 + 1) (offs.getD [])) acc2)
            acc.2))
    (stp, [])

theorem dedupeIndexStore_spec (st : StoreR) (idx : IndexRefs) (o : DupOpts) :
    dedupeIndexStore st idx o = (st, dedupeIndex (materialize st idx) o) := by
  rw [dedupeIndexStore, dedupeIndex, materialize, List.foldl_map]
  suffices h : ∀ (idx : IndexRefs) (out : Index),
      idx.foldl
        (fun acc kr =>
          let bucketRaw := readRef acc.1 kr.2
          if bucketRaw.length < o.minBucket then acc
          else if o.dropAbove < bucketRaw.length then acc
          else
            let bucket := normalizeBucket bucketRaw
            if bucket.length < o.minBucket then acc
            else
              let dst := dedupeScan o.maxBucket [] [] bucket
              if o.minBucket ≤ dst.length then (acc.1, acc.2 ++ [(kr.1, dst)]) else acc)
        (st, out) =
      (st, idx.foldl
        (fun out kr =>
          if (readRef st kr.2).length < o.minBucket then out
          else if o.dropAbove < (readRef st kr.2).length then out
          else
            let bucket := normalizeBucket (readRef st kr.2)
            if bucket.length < o.minBucket then out
            else
              let dst := dedupeScan o.maxBucket [] [] bucket
              if o.minBucket ≤ dst.length then out ++ [(kr.1, dst)] else out)
        out) by
    exact h idx []
  intro idx
  induction idx with
  | nil => exact fun out => rfl
  | cons kr rest ih =>
    intro out
    simp only [List.foldl_cons]
    by_cases h1 : (readRef st kr.2).length < o.minBucket
    · simp only [if_pos h1]
      exact ih out
    · simp only [if_neg h1]
      by_cases h2 : o.dropAbove < (readRef st kr.2).length
      · simp only [if_pos h2]
        exact ih out
      · simp only [if_neg h2]
        by_cases h3 : (normalizeBucket (readRef st kr.2)).length < o.minBucket
        · simp only [if_pos h3]
          exact ih out
        · simp only [if_neg h3]
          by_cases h4 : o.minBucket ≤
              (dedupeScan o.maxBucket [] [] (normalizeBucket (readRef st kr.2))).length
          · simp only [if_pos h4]
            exact ih _
          · simp only [if_neg h4]
            exact ih out

theorem look_map_values {κ α β : Type*} [DecidableEq κ] (g : α → β) (k : κ) :
    ∀ l : List (κ × α), look k (l.map (fun kv => (kv.1, g kv.2))) = (look k l).map g
  | [] => rfl
  | kv :: rest => by
    by_cases hk : k = kv.1
    · simp [look, hk]
    · simp only [List.map_cons]
      rw [show kv = (kv.1, kv.2) from rfl, look, look, if_neg hk, if_neg hk]
      exact look_map_values g k rest

theorem matchHashesToIndexStore_spec {κ : Type} [DecidableEq κ] (stp : StoreP)
    (lookupRefs : List (κ × Nat)) (queryHashes : List (κ × Int)) :
    matchHashesToIndexStore stp lookupRefs queryHashes =
      (stp, matchHashesToIndex queryHashes (materializeP stp lookupRefs)) := by
  have hlook : ∀ kt : κ × Int, look kt.1 (materializeP stp lookupRefs) =
      (look kt.1 lookupRefs).map (fun r => stp.getD r []) := by
    intro kt
    rw [materializeP]
    exact look_map_values (fun r => stp.getD r []) kt.1 lookupRefs
  rw [matchHashesToIndexStore, matchHashesToIndex]
  suffices h : ∀ (qh : List (κ × Int)) (acc : List (Id × List (Int × Nat))),
      qh.foldl
        (fun acc kt =>
          match look kt.1 lookupRefs with
          | none => acc
          | some r =>
            (acc.1,
              (acc.1.getD r []).foldl
                (fun acc2 p =>
                  upsert p.1
                    (fun offs => upsert (p.2 - kt.2) (fun c => c.getD 0 + 1) (offs.getD []))
                    acc2)
                acc.2))
        (stp, acc) =
      (stp, qh.foldl
        (fun acc kt =>
          match look kt.1 (materializeP stp lookupRefs) with
          | none => acc
          | some entries =>
            entries.foldl
              (fun acc2 p =>
                upsert p.1
                  (fun offs => upsert (p.2 - kt.2) (fun c => c.getD 0 + 1) (offs.getD []))
                  acc2)
              acc)
        acc) by
    exact h queryHashes []
  intro qh
  induction qh with
  | nil => exact fun acc => rfl
  | cons kt rest ih =>
    intro acc
    simp only [List.foldl_cons, hlook kt]
    cases hl : look kt.1 lookupRefs with
    | none => exact ih acc
    | some r =>
      simp only [Option.map_some]
      exact ih _

/-- C10: the matchers are read-only.  Threaded through an explicit store
of mutable buckets, the duplicate pass and the clip-lookup vote
accumulation return the store exactly as borrowed — every write in the
translation targets freshly allocated structures — and produce the same
results as the pure embeddings of the same source functions. -/
theorem matchers_readonly {κ : Type} [DecidableEq κ] (st : StoreR) (idx : IndexRefs)
    (o : DupOpts) (stp : StoreP) (lookupRefs : List (κ × Nat))
    (queryHashes : List (κ × Int)) :
    (findDuplicatesStore st idx o).1 = st ∧
    (findDuplicatesStore st idx o).2 = findDuplicatesV1 (materialize st idx) o ∧
    (matchHashesToIndexStore stp lookupRefs queryHashes).1 = stp ∧
    (matchHashesToIndexStore stp lookupRefs queryHashes).2 =
      matchHashesToIndex queryHashes (materializeP stp lookupRefs) := by
  have h1 := dedupeIndexStore_spec st idx o
  have h2 := matchHashesToIndexStore_spec stp lookupRefs queryHashes
  refine ⟨?_, ?_, ?_, ?_⟩
  · rw [findDuplicatesStore]
    simp only [h1]
  · rw [findDuplicatesStore]
    simp only [h1]
    rfl
  · rw [h2]
  · rw [h2]

end TuneShredder
